import Mathlib

/-!
# Rule engine: tokenizer, parser and evaluator

A shallow embedding of the expression core of the rule engine
(`internal/parser/parser.go`, `internal/evaluator/evaluator.go`,
`internal/ast/node.go` and the text helpers of `cmd/main.go`), followed by
theorems about it.

Conventions of the embedding.

* A Go `string` is the list of its bytes: every byte is written as the `Char`
  with the same code (below 256), so an ASCII string literal `"abc".toList` is
  the Go string `"abc"`, and a text that is not ASCII is the list of the bytes
  of its UTF-8 encoding.
* The predicates `unicode.IsSpace`, `unicode.IsLetter` and `unicode.IsDigit`
  are only ever applied to `rune(input[i])`, a single byte read as a Latin-1
  character, and are written out for all 256 bytes.
* The functions `strings.ToLower`, `strings.ToUpper`, `strings.TrimSpace` and
  `strings.Fields` are written out for ASCII text. On a text with a non-ASCII
  byte they decode UTF-8 and consult the Unicode tables of the Go library;
  that behaviour is a parameter of the embedding, the structure `Unicode`, and
  every theorem holds whatever it is.
* A Go `error` is a value of the type `Error`, one constructor for each
  message the code can produce; a function returning `(T, error)` becomes a
  function into `Except Error T`.
* `interface{}` values are the type `Value`: the dynamic types that a parsed
  literal or a decoded record can have (`nil`, `bool`, `int`, `float64`,
  `string`).
* A finite `float64` is kept exactly, as sign, mantissa and binary exponent.
-/

namespace RuleEngine

/-- Go `string`: the list of its bytes, each written as a character. -/
abbrev Str := List Char

/-! ## Library functions: `unicode` and `strings` -/

/-- The predicate `unicode.IsSpace` on `rune(b)` for a byte `b`: tab, line
feed, vertical tab, form feed, carriage return and space, and the Latin-1
characters U+0085 (next line) and U+00A0 (no-break space). -/
def isSpace (c : Char) : Bool :=
  c = '\t' || c = '\n' || c = Char.ofNat 11 || c = Char.ofNat 12 || c = '\r' || c = ' ' ||
    c = Char.ofNat 0x85 || c = Char.ofNat 0xA0

/-- The predicate `unicode.IsLetter` on `rune(b)` for a byte `b`: the ASCII
letters and the letters of Latin-1, which are U+00AA, U+00B5, U+00BA and
U+00C0 to U+00FF without the signs U+00D7 and U+00F7. -/
def isLetter (c : Char) : Bool :=
  ('a'.toNat ≤ c.toNat && c.toNat ≤ 'z'.toNat) || ('A'.toNat ≤ c.toNat && c.toNat ≤ 'Z'.toNat) ||
    c.toNat = 0xAA || c.toNat = 0xB5 || c.toNat = 0xBA ||
    (0xC0 ≤ c.toNat && c.toNat ≤ 0xD6) || (0xD8 ≤ c.toNat && c.toNat ≤ 0xF6) ||
    (0xF8 ≤ c.toNat && c.toNat ≤ 0xFF)

/-- The predicate `unicode.IsDigit` on `rune(b)` for a byte `b`: the ASCII
digits (Latin-1 has no other decimal digit). -/
def isDigit (c : Char) : Bool :=
  '0'.toNat ≤ c.toNat && c.toNat ≤ '9'.toNat

/-- The part of the Go library that the embedding takes as a parameter: what
`strings.ToLower`, `strings.ToUpper`, `strings.TrimSpace` and `strings.Fields`
return on a text that has a non-ASCII byte, where they decode UTF-8 and consult
the Unicode tables. Nothing is assumed about the four functions. -/
structure Unicode where
  /-- The function `strings.ToLower` on a text with a non-ASCII byte. -/
  ToLower : Str → Str
  /-- The function `strings.ToUpper` on a text with a non-ASCII byte. -/
  ToUpper : Str → Str
  /-- The function `strings.TrimSpace` on a text with a non-ASCII byte. -/
  TrimSpace : Str → Str
  /-- The function `strings.Fields` on a text with a non-ASCII byte. -/
  Fields : Str → List Str

/-- A library that leaves a text with a non-ASCII byte as it is. It stands for
the library in statements about one ASCII text, which never consult it. -/
def Unicode.inert : Unicode := ⟨id, id, id, fun s => [s]⟩

/-- Is every byte of the text below `utf8.RuneSelf = 0x80`? -/
def isASCII (s : Str) : Bool := s.all (fun c => decide (c.toNat < 128))

/-- The function `strings.ToLower`: on ASCII text the letters `A` to `Z` are
mapped byte by byte; any other text is mapped by the Unicode tables. -/
def ToLower (U : Unicode) (s : Str) : Str :=
  if isASCII s then s.map Char.toLower else U.ToLower s

/-- The function `strings.ToUpper`: on ASCII text the letters `a` to `z` are
mapped byte by byte; any other text is mapped by the Unicode tables. -/
def ToUpper (U : Unicode) (s : Str) : Str :=
  if isASCII s then s.map Char.toUpper else U.ToUpper s

/-- The function `strings.TrimSpace`: on ASCII text the white space bytes are
cut from both ends (on ASCII bytes `isSpace` is the table `asciiSpace` of the
library); any other text is trimmed of Unicode white space by the library. -/
def TrimSpace (U : Unicode) (s : Str) : Str :=
  if isASCII s then ((s.dropWhile isSpace).reverse.dropWhile isSpace).reverse
  else U.TrimSpace s

/-- The function `strings.Join`. -/
def Join : List Str → Str → Str
  | [], _ => []
  | [a], _ => a
  | a :: b :: rest, sep => a ++ sep ++ Join (b :: rest) sep

/-- Scanning loop of `strings.Fields` on ASCII text: `cur` is the field being
read (reversed). -/
def fieldsAux : List Char → List Char → List Str
  | [], cur => if cur.isEmpty then [] else [cur.reverse]
  | c :: cs, cur =>
    if isSpace c then
      (if cur.isEmpty then fieldsAux cs [] else cur.reverse :: fieldsAux cs [])
    else fieldsAux cs (c :: cur)

/-- The function `strings.Fields`: on ASCII text the maximal runs of non-space
bytes; any other text is split at Unicode white space by the library. -/
def Fields (U : Unicode) (s : Str) : List Str :=
  if isASCII s then fieldsAux s [] else U.Fields s

/-! ## A model of `float64` -/

/-- A `float64`: not-a-number, an infinity, or the finite number
`(-1)^neg * m * 2^e`, kept in the IEEE 754 form: `m < 2^53`, `-1074 ≤ e ≤ 971`
and `2^52 ≤ m` unless `e = -1074`. -/
inductive F64 where
  | nan : F64
  | inf (neg : Bool) : F64
  | fin (neg : Bool) (m : Nat) (e : Int) : F64
  deriving DecidableEq

/-- Number of binary digits of `n`, by halving at most `fuel` times. -/
def bitLenAux : Nat → Nat → Nat
  | 0, _ => 0
  | fuel + 1, n => if n = 0 then 0 else bitLenAux fuel (n / 2) + 1

/-- Number of binary digits of `n` (`0` for `0`). -/
def bitLen (n : Nat) : Nat := bitLenAux n n

namespace F64

/-- Round half to even of the quotient `n / d`. -/
def divRoundEven (n d : Nat) : Nat :=
  let q := n / d
  let r := n % d
  if 2 * r > d || (2 * r = d && q % 2 = 1) then q + 1 else q

/-- The quotient `num / (den * 2^e)` rounded half to even. -/
def scaledQuot (num den : Nat) (e : Int) : Nat :=
  if 0 ≤ e then divRoundEven num (den <<< e.toNat)
  else divRoundEven (num <<< (-e).toNat) den

/-- Is `num / (den * 2^e)` below `2^53`? -/
def belowTop (num den : Nat) (e : Int) : Bool :=
  if 0 ≤ e then decide (num < (den <<< e.toNat) <<< 53)
  else decide (num <<< (-e).toNat < den <<< 53)

/-- Rounding of the positive rational `num / den` (`den ≠ 0`) to the nearest
`float64`, ties to even: mantissa and exponent, or `none` on overflow. -/
def round (num den : Nat) : Option (Nat × Int) :=
  if num = 0 then some (0, -1074)
  else
    let e0 : Int := (bitLen num : Int) - (bitLen den : Int) - 53
    let e1 : Int := if belowTop num den e0 then e0 else e0 + 1
    let e : Int := if e1 < -1074 then -1074 else e1
    let m := scaledQuot num den e
    let me : Nat × Int := if m = 2 ^ 53 then (2 ^ 52, e + 1) else (m, e)
    if me.2 > 971 then none else some me

/-- The conversion `float64(i)` of an integer. -/
def ofInt (i : Int) : F64 :=
  match round i.natAbs 1 with
  | some (m, e) => fin (decide (i < 0)) m e
  | none => inf (decide (i < 0))

/-- Order key of a float: `none` for not-a-number, otherwise an integer that
orders the floats as their values do (the two zeros get the same key). -/
def key : F64 → Option Int
  | nan => none
  | inf neg => some (if neg then -((1 <<< 2200 : Nat) : Int) else ((1 <<< 2200 : Nat) : Int))
  | fin neg m e =>
    let v : Int := ((m <<< (e + 1074).toNat : Nat) : Int)
    some (if neg then -v else v)

/-- The comparison `a < b` of two `float64`. -/
def lt (a b : F64) : Bool :=
  match key a, key b with
  | some x, some y => decide (x < y)
  | _, _ => false

/-- The comparison `a == b` of two `float64`. -/
def eq (a b : F64) : Bool :=
  match key a, key b with
  | some x, some y => decide (x = y)
  | _, _ => false

/-- The comparison `a > b`. -/
def gt (a b : F64) : Bool := lt b a

/-- The comparison `a <= b`. -/
def le (a b : F64) : Bool := lt a b || eq a b

/-- The comparison `a >= b`. -/
def ge (a b : F64) : Bool := le b a

/-- The comparison `a != b`. -/
def ne (a b : F64) : Bool := !eq a b

end F64

/-! ## Dynamic values and the `strconv` and `fmt` functions -/

/-- A Go `interface{}` value, as a literal of a rule or a field of a record:
`nil`, a `bool`, an `int`, a `float64` or a `string`. -/
inductive Value where
  | nil : Value
  | bool (b : Bool) : Value
  | int (i : Int) : Value
  | float (f : F64) : Value
  | str (s : Str) : Value
  deriving DecidableEq

/-- Value of a decimal digit. -/
def digitVal (c : Char) : Option Nat :=
  if isDigit c then some (c.toNat - '0'.toNat) else none

/-- Value of a hexadecimal digit, in either case. -/
def hexDigitVal (c : Char) : Option Nat :=
  if isDigit c then some (c.toNat - '0'.toNat)
  else if 'a'.toNat ≤ c.toNat && c.toNat ≤ 'f'.toNat then some (c.toNat - 'a'.toNat + 10)
  else if 'A'.toNat ≤ c.toNat && c.toNat ≤ 'F'.toNat then some (c.toNat - 'A'.toNat + 10)
  else none

/-- Reads a string made of decimal digits only; `acc` is the number read so far. -/
def parseDigits : List Char → Nat → Option Nat
  | [], acc => some acc
  | c :: cs, acc =>
    match digitVal c with
    | some d => parseDigits cs (acc * 10 + d)
    | none => none

/-- The function `strconv.Atoi` on a 64-bit platform: an optional sign and one
or more decimal digits, the value within the range of `int`; `none` is an error. -/
def Atoi (s : Str) : Option Int :=
  let signed : Bool × List Char :=
    match s with
    | '-' :: r => (true, r)
    | '+' :: r => (false, r)
    | _ => (false, s)
  if signed.2.isEmpty then none
  else
    match parseDigits signed.2 0 with
    | none => none
    | some n =>
      if signed.1 then (if n ≤ 2 ^ 63 then some (-(n : Int)) else none)
      else (if n < 2 ^ 63 then some (n : Int) else none)

/-- Length of the common prefix of `s` and the lower-case word `w`, the case of
`s` being ignored (`commonPrefixLenIgnoreCase` of `strconv`). -/
def commonPrefixLen : List Char → List Char → Nat
  | c :: cs, p :: ps => if c.toLower = p then commonPrefixLen cs ps + 1 else 0
  | _, _ => 0

/-- The special values of `strconv.ParseFloat`: `inf` and `infinity` with an
optional sign, and `nan`, in any case. The result is the value and the number
of bytes read. -/
def special (s : Str) : Option (F64 × Nat) :=
  let infinity (neg : Bool) (nsign : Nat) (r : List Char) : Option (F64 × Nat) :=
    let n := commonPrefixLen r "infinity".toList
    let n := if 3 < n && n < 8 then 3 else n
    if n = 3 || n = 8 then some (F64.inf neg, nsign + n) else none
  match s with
  | [] => none
  | '+' :: r => infinity false 1 r
  | '-' :: r => infinity true 1 r
  | c :: r =>
    if c = 'i' || c = 'I' then infinity false 0 (c :: r)
    else if c = 'n' || c = 'N' then
      (if commonPrefixLen (c :: r) "nan".toList = 3 then some (F64.nan, 3) else none)
    else none

/-- What `readFloat` of `strconv` has read of a mantissa: the digits as one
number, how many of them follow the point, and the flags of the scan. -/
structure Mantissa where
  mant : Nat
  frac : Nat
  sawdot : Bool
  sawdigits : Bool
  underscores : Bool
  deriving DecidableEq

/-- The mantissa loop of `readFloat`: digits of the base, underscores and at
most one point; returns what was read and the unread rest. -/
def readMantissa (hex : Bool) : List Char → Mantissa → Mantissa × List Char
  | [], st => (st, [])
  | c :: cs, st =>
    if c = '_' then readMantissa hex cs { st with underscores := true }
    else if c = '.' then
      (if st.sawdot then (st, c :: cs) else readMantissa hex cs { st with sawdot := true })
    else
      match (if hex then hexDigitVal c else digitVal c) with
      | some d =>
        readMantissa hex cs
          { st with sawdigits := true
                    mant := st.mant * (if hex then 16 else 10) + d
                    frac := if st.sawdot then st.frac + 1 else st.frac }
      | none => (st, c :: cs)

/-- The exponent loop of `readFloat`: digits and underscores; the exponent
stops growing once it has reached 10000. Returns the exponent, whether an
underscore was seen, and the unread rest. -/
def readExpDigits : List Char → Nat → Bool → Nat × Bool × List Char
  | [], e, u => (e, u, [])
  | c :: cs, e, u =>
    if c = '_' then readExpDigits cs e true
    else
      match digitVal c with
      | some d => readExpDigits cs (if e < 10000 then e * 10 + d else e) u
      | none => (e, u, c :: cs)

/-- Scanning loop of `underscoreOK`: `saw` is the class of the last character,
`'0'` for a digit, `'_'` for an underscore, `'!'` for anything else. -/
def underscoreScan (hex : Bool) : List Char → Char → Bool
  | [], saw => saw != '_'
  | c :: cs, saw =>
    if isDigit c || (hex && (hexDigitVal c).isSome) then underscoreScan hex cs '0'
    else if c = '_' then (if saw != '0' then false else underscoreScan hex cs '_')
    else if saw = '_' then false
    else underscoreScan hex cs '!'

/-- The function `underscoreOK` of `strconv`: underscores only between digits,
or between a base prefix and a digit. -/
def underscoreOK (s : Str) : Bool :=
  let s1 : List Char :=
    match s with
    | '-' :: r => r
    | '+' :: r => r
    | _ => s
  match s1 with
  | '0' :: b :: r =>
    if b.toLower = 'b' || b.toLower = 'o' || b.toLower = 'x' then
      underscoreScan (b.toLower = 'x') r '0'
    else underscoreScan false s1 '^'
  | _ => underscoreScan false s1 '^'

/-- The syntax of a number of `strconv.ParseFloat` (the function `readFloat`
required to read the whole string): sign, mantissa, base flag and exponent of
the literal; the number is `mant * B^(-frac) * E^exp` with `(B, E) = (10, 10)`
for a decimal and `(16, 2)` for a hexadecimal literal. -/
def readFloat (s : Str) : Option (Bool × Mantissa × Bool × Int) :=
  let signed : Bool × List Char :=
    match s with
    | '+' :: r => (false, r)
    | '-' :: r => (true, r)
    | _ => (false, s)
  let based : Bool × List Char :=
    match signed.2 with
    | '0' :: x :: y :: r => if x.toLower = 'x' then (true, y :: r) else (false, signed.2)
    | _ => (false, signed.2)
  let hex := based.1
  let read := readMantissa hex based.2 ⟨0, 0, false, false, false⟩
  let st := read.1
  if !st.sawdigits then none
  else
    let expo : Option (Int × Bool × List Char) :=
      match read.2 with
      | [] => if hex then none else some (0, false, [])
      | c :: r =>
        if c.toLower = (if hex then 'p' else 'e') then
          let sgn : Bool × List Char :=
            match r with
            | '+' :: r1 => (false, r1)
            | '-' :: r1 => (true, r1)
            | _ => (false, r)
          match sgn.2 with
          | [] => none
          | d :: _ =>
            if isDigit d then
              let ex := readExpDigits sgn.2 0 false
              some (if sgn.1 then -(ex.1 : Int) else (ex.1 : Int), ex.2.1, ex.2.2)
            else none
        else if hex then none
        else some (0, false, c :: r)
    match expo with
    | none => none
    | some (e, u, rest) =>
      if !rest.isEmpty then none
      else if (st.underscores || u) && !underscoreOK s then none
      else some (signed.1, st, hex, e)

/-- The function `strconv.ParseFloat(s, 64)`: the special values, or the
number that `s` denotes rounded to the nearest `float64`; `none` is an error
(bad syntax, or a value out of range). -/
def ParseFloat (s : Str) : Option F64 :=
  match special s with
  | some (f, n) => if n = s.length then some f else none
  | none =>
    match readFloat s with
    | none => none
    | some (neg, st, hex, e) =>
      let k : Int := if hex then e - 4 * (st.frac : Int) else e - (st.frac : Int)
      let b : Nat := if hex then 2 else 10
      let r := if 0 ≤ k then F64.round (st.mant * b ^ k.toNat) 1
               else F64.round st.mant (b ^ (-k).toNat)
      match r with
      | some (m, x) => some (F64.fin neg m x)
      | none => none

/-- The function `strconv.Itoa`: the decimal digits, after a minus sign for a
negative number. -/
def formatInt (i : Int) : Str :=
  if i < 0 then '-' :: Nat.toDigits 10 i.natAbs else Nat.toDigits 10 i.natAbs

/-- The least `j` (counted from the given one) with `den ≤ num * 10^j`. -/
def scaleUp : Nat → Nat → Nat → Nat → Nat
  | 0, _, _, j => j
  | fuel + 1, num, den, j => if den ≤ num then j else scaleUp fuel (num * 10) den (j + 1)

/-- The decimal exponent of the positive rational `num / den`: the `k` with
`10^k ≤ num / den < 10^(k+1)`. -/
def decExp (num den : Nat) : Int :=
  if den ≤ num then ((Nat.toDigits 10 (num / den)).length : Int) - 1
  else -((scaleUp 400 num den 0 : Nat) : Int)

/-- Drops the zeros at the end of a digit string. -/
def stripZeros (ds : List Char) : List Char :=
  (ds.reverse.dropWhile (fun c => c = '0')).reverse

/-- The shortest decimal that `strconv.ParseFloat` reads back as the finite
positive float `m * 2^e`: its significant digits `d₁d₂…` and the position `dp`
of the decimal point, the number being `0.d₁d₂… * 10^dp`. Tries 1, 2, … digits
(17 digits always read back, so the search ends there); of two decimals of the
same length it takes the one nearer to the float, and the even one when the
float lies half way between them. -/
def shortestDigits (m : Nat) (e : Int) : List Char × Int :=
  let num : Nat := if 0 ≤ e then m <<< e.toNat else m
  let den : Nat := if 0 ≤ e then 1 else 1 <<< (-e).toNat
  let k := decExp num den
  let try_ (nd : Nat) : Option (List Char × Int) :=
    let t : Int := k - (nd : Int) + 1
    let n1 : Nat := if 0 ≤ t then num else num * 10 ^ (-t).toNat
    let d1 : Nat := if 0 ≤ t then den * 10 ^ t.toNat else den
    let lo := n1 / d1
    let r := n1 % d1
    let back (c : Nat) : Bool :=
      (if 0 ≤ t then F64.round (c * 10 ^ t.toNat) 1 else F64.round c (10 ^ (-t).toNat))
        = some (m, e)
    let out (c : Nat) : Option (List Char × Int) :=
      some (stripZeros (Nat.toDigits 10 c), ((Nat.toDigits 10 c).length : Int) + t)
    if r = 0 then (if back lo then out lo else none)
    else if back lo && back (lo + 1) then
      (if 2 * r < d1 || (2 * r = d1 && lo % 2 = 0) then out lo else out (lo + 1))
    else if back lo then out lo
    else if back (lo + 1) then out (lo + 1)
    else none
  let rec go : Nat → Nat → List Char × Int
    | 0, nd => (Nat.toDigits 10 m, (nd : Int))
    | fuel + 1, nd =>
      match try_ nd with
      | some r => r
      | none => go fuel (nd + 1)
  go 17 1

/-- The `%e` layout of `strconv`: one digit, the other digits after a point,
and an exponent of at least two digits with its sign. -/
def fmtE (ds : List Char) (dp : Int) : Str :=
  let x : Int := dp - 1
  let xs := Nat.toDigits 10 x.natAbs
  (match ds with
    | [] => ['0']
    | [d] => [d]
    | d :: rest => d :: '.' :: rest)
  ++ ['e', if x < 0 then '-' else '+'] ++ (if xs.length < 2 then '0' :: xs else xs)

/-- The `%f` layout of `strconv` with just as many decimals as there are
digits after the point. -/
def fmtF (ds : List Char) (dp : Int) : Str :=
  let nd := ds.length
  let whole : List Char :=
    if 0 < dp then ds.take dp.toNat ++ List.replicate (dp.toNat - nd) '0' else ['0']
  let prec : Nat := ((nd : Int) - dp).toNat
  let fracDigits : List Char :=
    (List.range prec).map (fun i =>
      let j : Int := dp + (i : Int)
      if 0 ≤ j then ds.getD j.toNat '0' else '0')
  if prec = 0 then whole else whole ++ '.' :: fracDigits

/-- The rendering of a `float64` by the verb `%v` of `fmt`: format `g` of
`strconv` with the shortest digits that read back, exponent form when the
decimal exponent is below -4 or at least 6. -/
def formatFloat : F64 → Str
  | F64.nan => "NaN".toList
  | F64.inf neg => if neg then "-Inf".toList else "+Inf".toList
  | F64.fin neg m e =>
    let sign : List Char := if neg then ['-'] else []
    if m = 0 then sign ++ ['0']
    else
      let d := shortestDigits m e
      let x : Int := d.2 - 1
      if x < -4 || x ≥ 6 then sign ++ fmtE d.1 d.2 else sign ++ fmtF d.1 d.2

/-- The text `fmt.Sprintf("%v", v)`. -/
def formatValue : Value → Str
  | Value.nil => "<nil>".toList
  | Value.bool b => if b then "true".toList else "false".toList
  | Value.int i => formatInt i
  | Value.float f => formatFloat f
  | Value.str s => s

/-- The function `parseValue` of the parser: an `int` if `strconv.Atoi`
accepts the text, else a `float64` if `strconv.ParseFloat` does, else the text. -/
def parseValue (value : Str) : Value :=
  match Atoi value with
  | some i => Value.int i
  | none =>
    match ParseFloat value with
    | some f => Value.float f
    | none => Value.str value

/-! ## Errors -/

/-- The errors of the tokenizer, the parser and the evaluator, one constructor
for each message of the code. -/
inductive Error where
  /-- Message `unterminated string literal`. -/
  | unterminatedString : Error
  /-- Message `unexpected character: %c`. -/
  | unexpectedCharacter (c : Char) : Error
  /-- Message `unexpected tokens remaining after parsing`. -/
  | tokensRemaining : Error
  /-- Message `expected comparison operator after field`. -/
  | expectedComparison : Error
  /-- Message `expected value after comparison operator`. -/
  | expectedValue : Error
  /-- Message `unexpected token`. -/
  | unexpectedToken : Error
  /-- Message `expected closing parenthesis`. -/
  | expectedClosingParen : Error
  /-- Message `tokenization error: %w`. -/
  | tokenization (cause : Error) : Error
  /-- Message `parsing error: %w`. -/
  | parsing (cause : Error) : Error
  /-- Message `invalid node`. -/
  | invalidNode : Error
  /-- Message `unknown operator: %s`. -/
  | unknownOperator (op : Str) : Error
  /-- Message `field %s not found in data`. -/
  | fieldNotFound (field : Str) : Error
  /-- Message `invalid node type: %s`. -/
  | invalidNodeType (ty : Str) : Error
  /-- Message `invalid operator %s for strings`. -/
  | invalidStringOperator (op : Str) : Error
  /-- Message `cannot compare values: %v and %v`. -/
  | cannotCompare (a b : Value) : Error
  deriving DecidableEq

/-! ## The tokenizer (`internal/parser/parser.go`) -/

/-- The token kinds, in the order of the `iota` declaration. -/
inductive TokenType where
  | OPERATOR | FIELD | VALUE | LPAREN | RPAREN | COMPARISON | AND | OR
  deriving DecidableEq

/-- A token: its kind (the field `Type`) and its text. -/
structure Token where
  Typ : TokenType
  Value : Str
  deriving DecidableEq

/-- The token of a word: `AND`, `OR` (whatever the case) or a lower-cased field. -/
def wordToken (U : Unicode) (word : Str) : Token :=
  if ToUpper U word = "AND".toList then ⟨TokenType.AND, "AND".toList⟩
  else if ToUpper U word = "OR".toList then ⟨TokenType.OR, "OR".toList⟩
  else ⟨TokenType.FIELD, ToLower U word⟩

/-- The loop of `Tokenize` over the bytes from index `i` on. The first argument
is `input[i:]`; `skip` is the number of bytes that the previous token still
covers (the loop index was moved to `j` or `j - 1`), and `tokens` the tokens
appended so far. -/
def tokenizeFrom (U : Unicode) : List Char → Nat → List Token → Except Error (List Token)
  | [], _, tokens => Except.ok tokens
  | _ :: cs, skip + 1, tokens => tokenizeFrom U cs skip tokens
  | c :: cs, 0, tokens =>
    if isSpace c then tokenizeFrom U cs 0 tokens
    else if c = '(' then tokenizeFrom U cs 0 (tokens ++ [⟨TokenType.LPAREN, ['(']⟩])
    else if c = ')' then tokenizeFrom U cs 0 (tokens ++ [⟨TokenType.RPAREN, [')']⟩])
    else if c = '\'' then
      -- `input[i+1:j]`, where `j` is the index of the next quote
      let lit := cs.takeWhile (fun x => x != '\'')
      if lit.length ≥ cs.length then Except.error Error.unterminatedString
      else tokenizeFrom U cs (lit.length + 1) (tokens ++ [⟨TokenType.VALUE, TrimSpace U lit⟩])
    else if isLetter c then
      -- `input[i:j]`: letters and digits
      let word := (c :: cs).takeWhile (fun x => isLetter x || isDigit x)
      tokenizeFrom U cs (word.length - 1) (tokens ++ [wordToken U (TrimSpace U word)])
    else if isDigit c then
      -- `input[i:j]`: digits and points
      let num := (c :: cs).takeWhile (fun x => isDigit x || x = '.')
      tokenizeFrom U cs (num.length - 1) (tokens ++ [⟨TokenType.VALUE, TrimSpace U num⟩])
    else if c = '>' || c = '<' || c = '=' then
      tokenizeFrom U cs 0 (tokens ++ [⟨TokenType.COMPARISON, [c]⟩])
    else Except.error (Error.unexpectedCharacter c)

/-- The function `Tokenize`. -/
def Tokenize (U : Unicode) (input : Str) : Except Error (List Token) :=
  tokenizeFrom U (TrimSpace U input) 0 []

/-! ## The syntax tree (`internal/ast/node.go`) and the parser -/

/-- A pointer `*ast.Node`: `nil`, or a node with its five fields `Type` (here `Typ`),
`Operator`, `Children`, `Field` and `Value`. -/
inductive Node where
  | nil : Node
  | mk (Typ : Str) (Operator : Str) (Children : List Node) (Field : Str) (Value : Value) : Node

/-- The operand node that `parseExpression` builds. -/
def operandNode (field operator value : Str) : Node :=
  Node.mk "operand".toList operator [] field (parseValue value)

/-- The operator node that `parseExpression` builds. -/
def operatorNode (op : Str) (left right : Node) : Node :=
  Node.mk "operator".toList op [left, right] [] Value.nil

/-- The method `parseExpression`, together with `parseParenExpression`. The
state of the parser is the list of the tokens not yet consumed,
`p.tokens[p.current:]`: a successful `p.match(t)` removes its first token,
which is then `p.previous()`. The result is the node and the new state. -/
def parseExpression : List Token → Except Error (Node × List Token)
  | [] => Except.error Error.unexpectedToken
  | t :: rest =>
    if t.Typ = TokenType.LPAREN then
      -- `parseParenExpression`
      match parseExpression rest with
      | Except.error err => Except.error err
      | Except.ok (expr, rest1) =>
        match rest1 with
        | [] => Except.error Error.expectedClosingParen
        | r :: rest2 =>
          if r.Typ = TokenType.RPAREN then Except.ok (expr, rest2)
          else Except.error Error.expectedClosingParen
    else if t.Typ = TokenType.FIELD then
      match rest with
      | [] => Except.error Error.expectedComparison
      | c :: rest1 =>
        if c.Typ ≠ TokenType.COMPARISON then Except.error Error.expectedComparison
        else
          match rest1 with
          | [] => Except.error Error.expectedValue
          | v :: rest2 =>
            if v.Typ ≠ TokenType.VALUE then Except.error Error.expectedValue
            else
              let node := operandNode t.Value c.Value v.Value
              match rest2 with
              | [] => Except.ok (node, [])
              | o :: rest3 =>
                if o.Typ = TokenType.AND ∨ o.Typ = TokenType.OR then
                  match parseExpression rest3 with
                  | Except.error err => Except.error err
                  | Except.ok (rightExpr, rest4) =>
                    Except.ok (operatorNode o.Value node rightExpr, rest4)
                else Except.ok (node, o :: rest3)
    else Except.error Error.unexpectedToken

/-- The method `Parse`: one expression, and no token left after it. -/
def Parse (tokens : List Token) : Except Error Node :=
  match parseExpression tokens with
  | Except.error err => Except.error err
  | Except.ok (node, rest) =>
    if rest.isEmpty then Except.ok node else Except.error Error.tokensRemaining

/-- The function `ParseRule`. -/
def ParseRule (U : Unicode) (ruleString : Str) : Except Error Node :=
  match Tokenize U ruleString with
  | Except.error err => Except.error (Error.tokenization err)
  | Except.ok tokens =>
    match Parse tokens with
    | Except.error err => Except.error (Error.parsing err)
    | Except.ok ast => Except.ok ast

/-! ## The evaluator (`internal/evaluator/evaluator.go`) -/

/-- A data record `map[string]interface{}`, as the list of its entries; a key
occurs once. -/
abbrev Record := List (Str × Value)

/-- Is the dynamic type of the value `string` (`reflect.String`)? -/
def Value.isString : Value → Bool
  | Value.str _ => true
  | _ => false

/-- The function `toFloat64`; `none` is its error. -/
def toFloat64 : Value → Option F64
  | Value.int i => some (F64.ofInt i)
  | Value.float f => some f
  | _ => none

/-- The function `compareValues`. -/
def compareValues (U : Unicode) (a b : Value) (operator : Str) : Except Error Bool :=
  if a.isString || b.isString then
    let aStr := ToLower U (formatValue a)
    let bStr := ToLower U (formatValue b)
    if operator = "=".toList then Except.ok (decide (aStr = bStr))
    else if operator = "!=".toList then Except.ok (decide (aStr ≠ bStr))
    else Except.error (Error.invalidStringOperator operator)
  else
    match toFloat64 a, toFloat64 b with
    | some aFloat, some bFloat =>
      if operator = ">".toList then Except.ok (F64.gt aFloat bFloat)
      else if operator = "<".toList then Except.ok (F64.lt aFloat bFloat)
      else if operator = "=".toList then Except.ok (F64.eq aFloat bFloat)
      else if operator = ">=".toList then Except.ok (F64.ge aFloat bFloat)
      else if operator = "<=".toList then Except.ok (F64.le aFloat bFloat)
      else if operator = "!=".toList then Except.ok (F64.ne aFloat bFloat)
      else Except.error (Error.unknownOperator operator)
    | _, _ => Except.error (Error.cannotCompare a b)

/-- The loop of the case `AND`: false at the first false result. -/
def allTrue : List Bool → Bool
  | [] => true
  | result :: rest => if !result then false else allTrue rest

/-- The loop of the case `OR`: true at the first true result. -/
def anyTrue : List Bool → Bool
  | [] => false
  | result :: rest => if result then true else anyTrue rest

mutual
/-- The function `EvaluateRule`. -/
def EvaluateRule (U : Unicode) : Node → Record → Except Error Bool
  | Node.nil, _ => Except.error Error.invalidNode
  | Node.mk ty operator children field value, data =>
    if ty = "operator".toList then
      match evaluateChildren U children data with
      | Except.error err => Except.error err
      | Except.ok results =>
        if operator = "AND".toList then Except.ok (allTrue results)
        else if operator = "OR".toList then Except.ok (anyTrue results)
        else Except.error (Error.unknownOperator operator)
    else if ty = "operand".toList then
      match data.lookup field with
      | none => Except.error (Error.fieldNotFound field)
      | some v => compareValues U v value operator
    else Except.error (Error.invalidNodeType ty)
/-- The first loop of the operator case: the results of the children in
order, or the error of the first child that fails. -/
def evaluateChildren (U : Unicode) : List Node → Record → Except Error (List Bool)
  | [], _ => Except.ok []
  | child :: rest, data =>
    match EvaluateRule U child data with
    | Except.error err => Except.error err
    | Except.ok result =>
      match evaluateChildren U rest data with
      | Except.error err => Except.error err
      | Except.ok results => Except.ok (result :: results)
end

/-! ## The text helpers of `cmd/main.go` -/

/-- The function `combineRuleExpressions`. -/
def combineRuleExpressions (U : Unicode) (expressions : List Str) : Str :=
  Join (expressions.map (ToLower U)) " AND ".toList

/-- The function `cleanExpression`. -/
def cleanExpression (U : Unicode) (expr : Str) : Str :=
  Join (Fields U (TrimSpace U (ToLower U expr))) " ".toList

/-! ## Notions of the specification -/

/-- The grammar of the specification, over token kinds:
`expression := '(' expression ')' | FIELD COMPARISON VALUE ((AND|OR) expression)?`. -/
inductive Derives : List Token → Prop where
  | paren {l r : Token} {e : List Token} :
      l.Typ = TokenType.LPAREN → r.Typ = TokenType.RPAREN → Derives e →
      Derives (l :: (e ++ [r]))
  | operand {f c v : Token} :
      f.Typ = TokenType.FIELD → c.Typ = TokenType.COMPARISON → v.Typ = TokenType.VALUE →
      Derives [f, c, v]
  | chain {f c v o : Token} {e : List Token} :
      f.Typ = TokenType.FIELD → c.Typ = TokenType.COMPARISON → v.Typ = TokenType.VALUE →
      (o.Typ = TokenType.AND ∨ o.Typ = TokenType.OR) → Derives e →
      Derives (f :: c :: v :: o :: e)

/-- A leaf of the tree, reached through operator nodes only, is an operand
whose field is not a key of the record. -/
inductive MissingField (data : Record) : Node → Prop where
  | leaf (operator field : Str) (value : Value) :
      data.lookup field = none →
      MissingField data (Node.mk "operand".toList operator [] field value)
  | inside (operator field : Str) (value : Value) (children : List Node) (child : Node) :
      child ∈ children → MissingField data child →
      MissingField data (Node.mk "operator".toList operator children field value)

/-- An integer that a `float64` holds exactly: its magnitude is `m * 2^k`
with `m < 2^53` and `k ≤ 971`. -/
def ExactFloat64 (a : Int) : Prop :=
  ∃ m k : Nat, m < 2 ^ 53 ∧ k ≤ 971 ∧ a.natAbs = m * 2 ^ k

/-- The grammar of the specification with the tree that each phrase stands for:
a parenthesized phrase stands for the tree of its inside; an operand
`FIELD COMPARISON VALUE` for the leaf of kind `operand` with the text of the
comparison as operator, the text of the field as field, the converted text of
the value as value, and no children; and `operand connective phrase` for the
node of kind `operator` with the text of the connective as operator and the
two trees, in that order, as children. -/
inductive DerivesTo : List Token → Node → Prop where
  | paren {l r : Token} {e : List Token} {T : Node} :
      l.Typ = TokenType.LPAREN → r.Typ = TokenType.RPAREN → DerivesTo e T →
      DerivesTo (l :: (e ++ [r])) T
  | operand {f c v : Token} :
      f.Typ = TokenType.FIELD → c.Typ = TokenType.COMPARISON → v.Typ = TokenType.VALUE →
      DerivesTo [f, c, v] (Node.mk "operand".toList c.Value [] f.Value (parseValue v.Value))
  | chain {f c v o : Token} {e : List Token} {T : Node} :
      f.Typ = TokenType.FIELD → c.Typ = TokenType.COMPARISON → v.Typ = TokenType.VALUE →
      (o.Typ = TokenType.AND ∨ o.Typ = TokenType.OR) → DerivesTo e T →
      DerivesTo (f :: c :: v :: o :: e)
        (Node.mk "operator".toList o.Value
          [Node.mk "operand".toList c.Value [] f.Value (parseValue v.Value), T] [] Value.nil)

/-- A well formed tree: an operand leaf without children whose operator is
`>`, `<` or `=` and whose value is an integer, a float or a string, or an
operator node `AND` or `OR` with exactly two well formed children (so neither
is `nil`). -/
inductive WellFormed : Node → Prop where
  | operand (operator field : Str) (value : Value) :
      (operator = ">".toList ∨ operator = "<".toList ∨ operator = "=".toList) →
      ((∃ i, value = Value.int i) ∨ (∃ f, value = Value.float f) ∨ (∃ s, value = Value.str s)) →
      WellFormed (Node.mk "operand".toList operator [] field value)
  | operator (connective field : Str) (value : Value) (left right : Node) :
      (connective = "AND".toList ∨ connective = "OR".toList) →
      WellFormed left → WellFormed right →
      WellFormed (Node.mk "operator".toList connective [left, right] field value)

/-- The token sequence without its parentheses. -/
def stripParens (ts : List Token) : List Token :=
  ts.filter (fun t => t.Typ != TokenType.LPAREN && t.Typ != TokenType.RPAREN)

/-- What the tokenizer guarantees of a token of any text: a comparison is one
of the characters `>`, `<`, `=`, and a connective carries its upper-case name. -/
def Token.Lexed (t : Token) : Prop :=
  (t.Typ = TokenType.COMPARISON →
    t.Value = ">".toList ∨ t.Value = "<".toList ∨ t.Value = "=".toList) ∧
  (t.Typ = TokenType.AND → t.Value = "AND".toList) ∧
  (t.Typ = TokenType.OR → t.Value = "OR".toList)

/-- What the tokenizer guarantees of a field token of an ASCII text: its name
is in lower case, and is neither `and` nor `or`. -/
def Token.LowerField (U : Unicode) (t : Token) : Prop :=
  t.Typ = TokenType.FIELD →
    ToLower U t.Value = t.Value ∧ t.Value ≠ "and".toList ∧ t.Value ≠ "or".toList

/-- An ASCII text: every byte is below 128. -/
def IsASCII (s : Str) : Prop := ∀ c, c ∈ s → c.toNat < 128

/-- An ASCII word: an ASCII letter followed by ASCII letters and digits. -/
def IsWord (w : Str) : Prop :=
  ∃ c cs, w = c :: cs ∧ isLetter c = true ∧
    (∀ x, x ∈ cs → (isLetter x || isDigit x) = true) ∧ IsASCII w

/-- A numeral as the tokenizer reads it: a digit followed by digits and points. -/
def IsNumeralRun (v : Str) : Prop :=
  ∃ c cs, v = c :: cs ∧ isDigit c = true ∧ ∀ x, x ∈ cs → (isDigit x || x = '.') = true

/-- The scan of the specification, as the claim words it: `inQuote` tells
whether a quoted literal is open. The result is true when the text is in
error: a literal is still open at the end, or a character outside the literals
is not white space, a parenthesis, a quote, a letter, a digit, a point or one
of `>`, `<`, `=`. -/
def specLexError : Bool → List Char → Bool
  | inQuote, [] => inQuote
  | true, c :: cs => if c = '\'' then specLexError false cs else specLexError true cs
  | false, c :: cs =>
    if c = '\'' then specLexError true cs
    else if isSpace c || c = '(' || c = ')' || isLetter c || isDigit c || c = '.' ||
        c = '>' || c = '<' || c = '=' then specLexError false cs
    else true

/-- Where a left to right scan of a rule text stands: outside any token,
inside a word, inside a numeral, or inside a quoted literal. -/
inductive LexMode where
  | out | word | num | quote
  deriving DecidableEq

/-- The step of the scan at a character that starts something new: the mode
after it, or `none` when the character is in error. A point starts nothing. -/
def outStep (c : Char) : Option LexMode :=
  if isSpace c then some LexMode.out
  else if c = '(' then some LexMode.out
  else if c = ')' then some LexMode.out
  else if c = '\'' then some LexMode.quote
  else if isLetter c then some LexMode.word
  else if isDigit c then some LexMode.num
  else if c = '>' || c = '<' || c = '=' then some LexMode.out
  else none

/-- The step of the scan: a literal runs to the next quote, a word over
letters and digits, a numeral over digits and points; any other character is
taken as one that starts something new. -/
def lexStep : LexMode → Char → Option LexMode
  | LexMode.quote, c => if c = '\'' then some LexMode.out else some LexMode.quote
  | LexMode.word, c => if isLetter c || isDigit c then some LexMode.word else outStep c
  | LexMode.num, c => if isDigit c || c = '.' then some LexMode.num else outStep c
  | LexMode.out, c => outStep c

/-- The scan of a rule text from a given mode; true when the text is in
error: a character is in error where it stands, or a literal is still open at
the end. -/
def lexError : LexMode → List Char → Bool
  | m, [] => decide (m = LexMode.quote)
  | m, c :: cs =>
    match lexStep m c with
    | none => true
    | some m1 => lexError m1 cs

variable {U : Unicode}

/-! ## The parser -/

theorem parseExpression_nil : parseExpression [] = Except.error Error.unexpectedToken := rfl

theorem parseExpression_cons (t : Token) (rest : List Token) :
    parseExpression (t :: rest) =
    if t.Typ = TokenType.LPAREN then
      match parseExpression rest with
      | Except.error err => Except.error err
      | Except.ok (expr, rest1) =>
        match rest1 with
        | [] => Except.error Error.expectedClosingParen
        | r :: rest2 =>
          if r.Typ = TokenType.RPAREN then Except.ok (expr, rest2)
          else Except.error Error.expectedClosingParen
    else if t.Typ = TokenType.FIELD then
      match rest with
      | [] => Except.error Error.expectedComparison
      | c :: rest1 =>
        if c.Typ ≠ TokenType.COMPARISON then Except.error Error.expectedComparison
        else
          match rest1 with
          | [] => Except.error Error.expectedValue
          | v :: rest2 =>
            if v.Typ ≠ TokenType.VALUE then Except.error Error.expectedValue
            else
              let node := operandNode t.Value c.Value v.Value
              match rest2 with
              | [] => Except.ok (node, [])
              | o :: rest3 =>
                if o.Typ = TokenType.AND ∨ o.Typ = TokenType.OR then
                  match parseExpression rest3 with
                  | Except.error err => Except.error err
                  | Except.ok (rightExpr, rest4) =>
                    Except.ok (operatorNode o.Value node rightExpr, rest4)
                else Except.ok (node, o :: rest3)
    else Except.error Error.unexpectedToken := by
  cases rest with
  | nil => rfl
  | cons c r1 =>
    cases r1 with
    | nil => rfl
    | cons v r2 =>
      cases r2 with
      | nil => rfl
      | cons o r3 => rfl

theorem parseExpression_paren {t : Token} (rest : List Token) (h : t.Typ = TokenType.LPAREN) :
    parseExpression (t :: rest) =
      match parseExpression rest with
      | Except.error err => Except.error err
      | Except.ok (expr, rest1) =>
        match rest1 with
        | [] => Except.error Error.expectedClosingParen
        | r :: rest2 =>
          if r.Typ = TokenType.RPAREN then Except.ok (expr, rest2)
          else Except.error Error.expectedClosingParen := by
  rw [parseExpression_cons, if_pos h]

theorem parseExpression_operand_end {f c v : Token} (hf : f.Typ = TokenType.FIELD)
    (hc : c.Typ = TokenType.COMPARISON) (hv : v.Typ = TokenType.VALUE) :
    parseExpression [f, c, v] = Except.ok (operandNode f.Value c.Value v.Value, []) := by
  rw [parseExpression_cons]; simp [hf, hc, hv]

theorem parseExpression_operand_conn {f c v o : Token} (rest : List Token)
    (hf : f.Typ = TokenType.FIELD) (hc : c.Typ = TokenType.COMPARISON)
    (hv : v.Typ = TokenType.VALUE) (ho : o.Typ = TokenType.AND ∨ o.Typ = TokenType.OR) :
    parseExpression (f :: c :: v :: o :: rest) =
      match parseExpression rest with
      | Except.error err => Except.error err
      | Except.ok (rightExpr, rest4) =>
        Except.ok (operatorNode o.Value (operandNode f.Value c.Value v.Value) rightExpr, rest4) := by
  rw [parseExpression_cons]; simp [hf, hc, hv, ho]

theorem parseExpression_operand_stop {f c v o : Token} (rest : List Token)
    (hf : f.Typ = TokenType.FIELD) (hc : c.Typ = TokenType.COMPARISON)
    (hv : v.Typ = TokenType.VALUE) (ho : ¬ (o.Typ = TokenType.AND ∨ o.Typ = TokenType.OR)) :
    parseExpression (f :: c :: v :: o :: rest) =
      Except.ok (operandNode f.Value c.Value v.Value, o :: rest) := by
  rw [parseExpression_cons]; simp [hf, hc, hv, ho]

/-- Whatever `parseExpression` consumes is a phrase of the grammar. -/
theorem parseExpression_sound (n : Nat) : ∀ (ts : List Token), ts.length ≤ n →
    ∀ node rest, parseExpression ts = Except.ok (node, rest) →
      ∃ p, Derives p ∧ ts = p ++ rest := by
  induction n with
  | zero =>
    intro ts hlen node rest h
    cases ts with
    | nil => simp [parseExpression_nil] at h
    | cons t ts => simp at hlen
  | succ n ih =>
    intro ts hlen node rest h
    cases ts with
    | nil => simp [parseExpression_nil] at h
    | cons t ts =>
      simp only [List.length_cons, Nat.add_le_add_iff_right] at hlen
      by_cases hl : t.Typ = TokenType.LPAREN
      · rw [parseExpression_paren ts hl] at h
        cases hp : parseExpression ts with
        | error err => simp [hp] at h
        | ok res =>
          obtain ⟨expr, rest1⟩ := res
          obtain ⟨p, hpd, hts⟩ := ih ts hlen expr rest1 hp
          simp only [hp] at h
          cases rest1 with
          | nil => simp at h
          | cons r rest2 =>
            by_cases hr : r.Typ = TokenType.RPAREN
            · simp only [hr, if_true, Except.ok.injEq, Prod.mk.injEq] at h
              refine ⟨t :: (p ++ [r]), Derives.paren hl hr hpd, ?_⟩
              rw [hts, ← h.2]; simp
            · simp [hr] at h
      · by_cases hf : t.Typ = TokenType.FIELD
        · cases ts with
          | nil => rw [parseExpression_cons] at h; simp [hl, hf] at h
          | cons c ts1 =>
            by_cases hc : c.Typ = TokenType.COMPARISON
            · cases ts1 with
              | nil => rw [parseExpression_cons] at h; simp [hl, hf, hc] at h
              | cons v ts2 =>
                by_cases hv : v.Typ = TokenType.VALUE
                · cases ts2 with
                  | nil =>
                    rw [parseExpression_operand_end hf hc hv] at h
                    simp only [Except.ok.injEq, Prod.mk.injEq] at h
                    exact ⟨[t, c, v], Derives.operand hf hc hv, by rw [← h.2]; simp⟩
                  | cons o ts3 =>
                    by_cases ho : o.Typ = TokenType.AND ∨ o.Typ = TokenType.OR
                    · rw [parseExpression_operand_conn ts3 hf hc hv ho] at h
                      cases hp : parseExpression ts3 with
                      | error err => simp [hp] at h
                      | ok res =>
                        obtain ⟨right, rest4⟩ := res
                        have hlen3 : ts3.length ≤ n := by
                          simp only [List.length_cons] at hlen; omega
                        obtain ⟨p, hpd, hts⟩ := ih ts3 hlen3 right rest4 hp
                        simp only [hp, Except.ok.injEq, Prod.mk.injEq] at h
                        refine ⟨t :: c :: v :: o :: p, Derives.chain hf hc hv ho hpd, ?_⟩
                        rw [hts, ← h.2]; simp
                    · rw [parseExpression_operand_stop ts3 hf hc hv ho] at h
                      simp only [Except.ok.injEq, Prod.mk.injEq] at h
                      exact ⟨[t, c, v], Derives.operand hf hc hv, by rw [← h.2]; simp⟩
                · rw [parseExpression_cons] at h; simp [hl, hf, hc, hv] at h
            · rw [parseExpression_cons] at h; simp [hl, hf, hc] at h
        · rw [parseExpression_cons] at h; simp [hl, hf] at h

/-- A phrase of the grammar is consumed whole by `parseExpression` when no
connective follows it. -/
theorem parseExpression_complete {p : List Token} (hp : Derives p) :
    ∀ rest : List Token, (∀ o rest1, rest = o :: rest1 → ¬ (o.Typ = TokenType.AND ∨ o.Typ = TokenType.OR)) →
      ∃ node, parseExpression (p ++ rest) = Except.ok (node, rest) := by
  induction hp with
  | @paren l r e hl hr _ ih =>
    intro rest _
    have hr1 : ∀ o rest1, r :: rest = o :: rest1 →
        ¬ (o.Typ = TokenType.AND ∨ o.Typ = TokenType.OR) := by
      intro o rest1 h
      simp only [List.cons.injEq] at h
      rw [← h.1, hr]; simp
    obtain ⟨node, hn⟩ := ih (r :: rest) hr1
    refine ⟨node, ?_⟩
    have : l :: (e ++ [r]) ++ rest = l :: (e ++ r :: rest) := by simp
    rw [this, parseExpression_paren _ hl, hn]
    simp [hr]
  | @operand f c v hf hc hv =>
    intro rest hrest
    refine ⟨operandNode f.Value c.Value v.Value, ?_⟩
    cases rest with
    | nil => exact parseExpression_operand_end hf hc hv
    | cons o rest1 => exact parseExpression_operand_stop rest1 hf hc hv (hrest o rest1 rfl)
  | @chain f c v o e hf hc hv ho _ ih =>
    intro rest hrest
    obtain ⟨node, hn⟩ := ih rest hrest
    refine ⟨operatorNode o.Value (operandNode f.Value c.Value v.Value) node, ?_⟩
    have : f :: c :: v :: o :: e ++ rest = f :: c :: v :: o :: (e ++ rest) := by simp
    rw [this, parseExpression_operand_conn _ hf hc hv ho, hn]

/-- The method `Parse` accepts exactly the phrases of the grammar. -/
theorem Parse_ok_iff_Derives (ts : List Token) :
    (∃ ast, Parse ts = Except.ok ast) ↔ Derives ts := by
  constructor
  · rintro ⟨ast, h⟩
    unfold Parse at h
    cases hp : parseExpression ts with
    | error err => simp [hp] at h
    | ok res =>
      obtain ⟨node, rest⟩ := res
      simp only [hp] at h
      cases rest with
      | nil =>
        obtain ⟨p, hpd, hts⟩ := parseExpression_sound ts.length ts (Nat.le_refl _) node [] hp
        simp only [List.append_nil] at hts
        exact hts ▸ hpd
      | cons r rest1 => simp at h
  · intro hd
    obtain ⟨node, hn⟩ := parseExpression_complete hd [] (by intro o rest1 h; simp at h)
    simp only [List.append_nil] at hn
    exact ⟨node, by unfold Parse; rw [hn]; simp⟩

/-! ## The evaluator -/

theorem EvaluateRule_nil (data : Record) :
    EvaluateRule U Node.nil data = Except.error Error.invalidNode := rfl

theorem EvaluateRule_mk (ty operator : Str) (children : List Node) (field : Str)
    (value : Value) (data : Record) :
    EvaluateRule U (Node.mk ty operator children field value) data =
    if ty = "operator".toList then
      match evaluateChildren U children data with
      | Except.error err => Except.error err
      | Except.ok results =>
        if operator = "AND".toList then Except.ok (allTrue results)
        else if operator = "OR".toList then Except.ok (anyTrue results)
        else Except.error (Error.unknownOperator operator)
    else if ty = "operand".toList then
      match data.lookup field with
      | none => Except.error (Error.fieldNotFound field)
      | some v => compareValues U v value operator
    else Except.error (Error.invalidNodeType ty) := by
  rw [EvaluateRule]

theorem evaluateChildren_nil (data : Record) :
    evaluateChildren U [] data = Except.ok [] := by
  rw [evaluateChildren]

theorem evaluateChildren_cons (child : Node) (rest : List Node) (data : Record) :
    evaluateChildren U (child :: rest) data =
    match EvaluateRule U child data with
    | Except.error err => Except.error err
    | Except.ok result =>
      match evaluateChildren U rest data with
      | Except.error err => Except.error err
      | Except.ok results => Except.ok (result :: results) := by
  rw [evaluateChildren]

theorem EvaluateRule_operand (operator : Str) (children : List Node) (field : Str)
    (value : Value) (data : Record) :
    EvaluateRule U (Node.mk "operand".toList operator children field value) data =
      match data.lookup field with
      | none => Except.error (Error.fieldNotFound field)
      | some v => compareValues U v value operator := by
  rw [EvaluateRule_mk, if_neg (by decide), if_pos rfl]

theorem EvaluateRule_operator (operator : Str) (children : List Node) (field : Str)
    (value : Value) (data : Record) :
    EvaluateRule U (Node.mk "operator".toList operator children field value) data =
      match evaluateChildren U children data with
      | Except.error err => Except.error err
      | Except.ok results =>
        if operator = "AND".toList then Except.ok (allTrue results)
        else if operator = "OR".toList then Except.ok (anyTrue results)
        else Except.error (Error.unknownOperator operator) := by
  rw [EvaluateRule_mk, if_pos rfl]

/-- The children loop fails as soon as one child fails: there is no short cut. -/
theorem evaluateChildren_error (data : Record) (children : List Node) (child : Node)
    (hmem : child ∈ children) (herr : ∃ err, EvaluateRule U child data = Except.error err) :
    ∃ err, evaluateChildren U children data = Except.error err := by
  induction children with
  | nil => simp at hmem
  | cons c rest ih =>
    rw [evaluateChildren_cons]
    cases hc : EvaluateRule U c data with
    | error e => exact ⟨e, rfl⟩
    | ok b =>
      have hrest : child ∈ rest := by
        rcases List.mem_cons.mp hmem with h | h
        · obtain ⟨err, he⟩ := herr
          rw [h, hc] at he
          cases he
        · exact h
      obtain ⟨err, he⟩ := ih hrest
      exact ⟨err, by simp [he]⟩

/-- When every child evaluates, the loop returns the list of the results. -/
theorem evaluateChildren_ok (data : Record) (children : List Node)
    (hall : ∀ child, child ∈ children → ∃ b, EvaluateRule U child data = Except.ok b) :
    ∃ results, evaluateChildren U children data = Except.ok results ∧
      (allTrue results = true ↔
        ∀ child, child ∈ children → EvaluateRule U child data = Except.ok true) ∧
      (anyTrue results = true ↔
        ∃ child, child ∈ children ∧ EvaluateRule U child data = Except.ok true) := by
  induction children with
  | nil =>
    exact ⟨[], evaluateChildren_nil data, by simp [allTrue], by simp [anyTrue]⟩
  | cons c rest ih =>
    obtain ⟨b, hb⟩ := hall c (List.mem_cons_self c rest)
    obtain ⟨rs, hrs, hand, hor⟩ := ih (fun child h => hall child (List.mem_cons_of_mem c h))
    refine ⟨b :: rs, ?_, ?_, ?_⟩
    · rw [evaluateChildren_cons, hb, hrs]
    · cases b with
      | true =>
        simp only [allTrue, Bool.not_true, Bool.false_eq_true, if_false, hand]
        constructor
        · intro h child hmem
          rcases List.mem_cons.mp hmem with h1 | h1
          · rw [h1]; exact hb
          · exact h child h1
        · intro h child hmem
          exact h child (List.mem_cons_of_mem c hmem)
      | false =>
        simp only [allTrue, Bool.not_false, if_true, Bool.false_eq_true, false_iff]
        intro h
        have := h c (List.mem_cons_self c rest)
        rw [hb] at this
        cases this
    · cases b with
      | true =>
        simp only [anyTrue, if_true, true_iff]
        exact ⟨c, List.mem_cons_self c rest, hb⟩
      | false =>
        simp only [anyTrue, Bool.false_eq_true, if_false, hor]
        constructor
        · rintro ⟨child, hmem, h⟩
          exact ⟨child, List.mem_cons_of_mem c hmem, h⟩
        · rintro ⟨child, hmem, h⟩
          rcases List.mem_cons.mp hmem with h1 | h1
          · rw [h1, hb] at h; cases h
          · exact ⟨child, h1, h⟩

/-! ## Conversion of integers to `float64` -/

theorem bitLenAux_spec : ∀ (fuel n : Nat), n ≤ fuel → n ≠ 0 →
    2 ^ (bitLenAux fuel n - 1) ≤ n ∧ n < 2 ^ (bitLenAux fuel n) ∧ 1 ≤ bitLenAux fuel n := by
  intro fuel
  induction fuel with
  | zero => intro n h0 hn; omega
  | succ fuel ih =>
    intro n hle hn
    rw [bitLenAux, if_neg hn]
    by_cases h2 : n / 2 = 0
    · have h1 : n = 1 := by omega
      subst h1
      cases fuel with
      | zero => simp [bitLenAux]
      | succ k => simp [bitLenAux]
    · have hle2 : n / 2 ≤ fuel := by omega
      obtain ⟨hlo, hhi, hpos⟩ := ih (n / 2) hle2 h2
      refine ⟨?_, ?_, by omega⟩
      · have : bitLenAux fuel (n / 2) + 1 - 1 = (bitLenAux fuel (n / 2) - 1) + 1 := by omega
        rw [this, pow_succ]
        omega
      · rw [pow_succ]
        omega

theorem bitLen_spec (n : Nat) (hn : n ≠ 0) :
    2 ^ (bitLen n - 1) ≤ n ∧ n < 2 ^ (bitLen n) ∧ 1 ≤ bitLen n :=
  bitLenAux_spec n n (Nat.le_refl n) hn

theorem bitLen_one : bitLen 1 = 1 := by decide

theorem bitLen_le_of_lt {n k : Nat} (hn : n ≠ 0) (h : n < 2 ^ k) : bitLen n ≤ k := by
  obtain ⟨hlo, _, hpos⟩ := bitLen_spec n hn
  by_contra hc
  have hk : k ≤ bitLen n - 1 := by omega
  have : 2 ^ k ≤ 2 ^ (bitLen n - 1) := Nat.pow_le_pow_right (by decide) hk
  omega

/-- The rounding of a natural number below `2^53` is exact. -/
theorem round_small (n : Nat) (hn : n ≠ 0) (h : n < 2 ^ 53) :
    F64.round n 1 = some (n * 2 ^ (53 - bitLen n), (bitLen n : Int) - 53) := by
  obtain ⟨hlo, hhi, hpos⟩ := bitLen_spec n hn
  have hL : bitLen n ≤ 53 := bitLen_le_of_lt hn h
  unfold F64.round
  rw [if_neg hn, bitLen_one]
  generalize bitLen n = L at hlo hhi hpos hL ⊢
  have hdiv : ∀ x : Nat, F64.divRoundEven x 1 = x := by
    intro x
    simp [F64.divRoundEven, Nat.mod_one]
  have hpow : 2 ^ (L - 1) * 2 ^ (54 - L) = 2 ^ 53 := by
    rw [← pow_add]; congr 1; omega
  have hpow2 : 2 ^ L * 2 ^ (53 - L) = 2 ^ 53 := by
    rw [← pow_add]; congr 1; omega
  have hge : 2 ^ 53 ≤ n * 2 ^ (54 - L) := by
    rw [← hpow]; exact Nat.mul_le_mul_right _ hlo
  have hlt : n * 2 ^ (53 - L) < 2 ^ 53 := by
    rw [← hpow2]; exact Nat.mul_lt_mul_of_pos_right hhi (by positivity)
  have he0 : ((L : Int) - ((1 : Nat) : Int) - 53) < 0 := by omega
  have hbelow : F64.belowTop n 1 ((L : Int) - ((1 : Nat) : Int) - 53) = false := by
    unfold F64.belowTop
    rw [if_neg (by omega)]
    have : (-((L : Int) - ((1 : Nat) : Int) - 53)).toNat = 54 - L := by omega
    rw [this]
    simp only [Nat.shiftLeft_eq, one_mul, decide_eq_false_iff_not, not_lt]
    exact hge
  have hq : F64.scaledQuot n 1 ((L : Int) - ((1 : Nat) : Int) - 53 + 1) = n * 2 ^ (53 - L) := by
    unfold F64.scaledQuot
    by_cases h53 : L = 53
    · subst h53
      simp [hdiv]
    · rw [if_neg (by omega)]
      have : (-((L : Int) - ((1 : Nat) : Int) - 53 + 1)).toNat = 53 - L := by omega
      rw [this, hdiv, Nat.shiftLeft_eq]
  have hclamp : (if (L : Int) - ((1 : Nat) : Int) - 53 + 1 < -1074 then (-1074 : Int)
      else (L : Int) - ((1 : Nat) : Int) - 53 + 1) = (L : Int) - ((1 : Nat) : Int) - 53 + 1 :=
    if_neg (by omega)
  have hne : ¬ (n * 2 ^ (53 - L) = 2 ^ 53) := by omega
  simp only [hbelow, Bool.false_eq_true, if_false, hclamp, hq, hne]
  rw [if_neg (by omega)]
  congr 2
  omega

theorem round_large (n m k : Nat) (hm : m < 2 ^ 53) (hk : k ≤ 971) (hnm : n = m * 2 ^ k)
    (hbig : 53 < bitLen n) :
    F64.round n 1 = some (n / 2 ^ (bitLen n - 53), (bitLen n : Int) - 53) ∧
      n / 2 ^ (bitLen n - 53) * 2 ^ (bitLen n - 53) = n := by
  have hn : n ≠ 0 := by
    intro h0
    rw [h0] at hbig
    simp [bitLen, bitLenAux] at hbig
  obtain ⟨hlo, hhi, hpos⟩ := bitLen_spec n hn
  have hLk : bitLen n ≤ 53 + k := by
    apply bitLen_le_of_lt hn
    rw [hnm, pow_add]
    exact Nat.mul_lt_mul_of_pos_right hm (by positivity)
  unfold F64.round
  rw [if_neg hn, bitLen_one]
  generalize bitLen n = L at hlo hhi hpos hbig hLk ⊢
  obtain ⟨s, rfl⟩ : ∃ s, L = 53 + (s + 1) := ⟨L - 54, by omega⟩
  have hs : 53 + (s + 1) - 53 = s + 1 := by omega
  have hs1 : 53 + (s + 1) - 1 = s + 53 := by omega
  rw [hs]
  rw [hs1] at hlo
  have hdvd : 2 ^ (s + 1) ∣ n := by
    rw [hnm]
    exact Dvd.dvd.mul_left (pow_dvd_pow 2 (by omega)) m
  have hmul : n / 2 ^ (s + 1) * 2 ^ (s + 1) = n := Nat.div_mul_cancel hdvd
  have hmod : n % 2 ^ (s + 1) = 0 := Nat.mod_eq_zero_of_dvd hdvd
  have hbelow : F64.belowTop n 1 (((53 + (s + 1) : Nat) : Int) - ((1 : Nat) : Int) - 53) = false := by
    unfold F64.belowTop
    rw [if_pos (by omega)]
    have : (((53 + (s + 1) : Nat) : Int) - ((1 : Nat) : Int) - 53).toNat = s := by omega
    rw [this]
    simp only [Nat.shiftLeft_eq, one_mul, decide_eq_false_iff_not, not_lt]
    rw [← pow_add]
    exact hlo
  have hclamp : (if ((53 + (s + 1) : Nat) : Int) - ((1 : Nat) : Int) - 53 + 1 < -1074
      then (-1074 : Int)
      else ((53 + (s + 1) : Nat) : Int) - ((1 : Nat) : Int) - 53 + 1) =
        ((53 + (s + 1) : Nat) : Int) - ((1 : Nat) : Int) - 53 + 1 :=
    if_neg (by omega)
  have hq : F64.scaledQuot n 1 (((53 + (s + 1) : Nat) : Int) - ((1 : Nat) : Int) - 53 + 1) =
      n / 2 ^ (s + 1) := by
    unfold F64.scaledQuot
    rw [if_pos (by omega)]
    have : (((53 + (s + 1) : Nat) : Int) - ((1 : Nat) : Int) - 53 + 1).toNat = s + 1 := by omega
    rw [this]
    simp [F64.divRoundEven, Nat.shiftLeft_eq, hmod]
    intro h
    exact absurd h.symm (by positivity)
  have hne : ¬ (n / 2 ^ (s + 1) = 2 ^ 53) := by
    intro h
    rw [h, ← pow_add] at hmul
    rw [← hmul] at hhi
    exact absurd hhi (by simp)
  simp only [hbelow, Bool.false_eq_true, if_false, hclamp, hq, hne]
  rw [if_neg (by omega)]
  refine ⟨?_, hmul⟩
  congr 2
  omega

/-- The order key of `float64(a)` is `a` itself, scaled, when a `float64`
holds `a` exactly: the conversion does not round. -/
theorem key_ofInt (a : Int) (h : ExactFloat64 a) :
    F64.key (F64.ofInt a) = some (a * ((2 ^ 1074 : Nat) : Int)) := by
  have hcast : ∀ q k K : Nat, q * 2 ^ k = K * a.natAbs →
      (if decide (a < 0) = true then -((q * 2 ^ k : Nat) : Int)
        else ((q * 2 ^ k : Nat) : Int)) = a * (K : Int) := by
    intro q k K hk
    rw [hk]
    push_cast
    by_cases hneg : a < 0
    · simp only [hneg, decide_True, if_true]
      rw [abs_of_neg hneg]
      ring
    · simp only [hneg, decide_False, Bool.false_eq_true, if_false]
      rw [abs_of_nonneg (by omega)]
      ring
  by_cases h0 : a.natAbs = 0
  · have ha : a = 0 := Int.natAbs_eq_zero.mp h0
    subst ha
    have hz : F64.ofInt 0 = F64.fin false 0 (-1074) := by decide
    rw [hz, Int.zero_mul]
    simp only [F64.key, Nat.zero_shiftLeft]
    rfl
  · obtain ⟨m, k, hm, hk, hmk⟩ := h
    obtain ⟨hlo, hhi, hpos⟩ := bitLen_spec a.natAbs h0
    by_cases hL : bitLen a.natAbs ≤ 53
    · have hlt : a.natAbs < 2 ^ 53 :=
        Nat.lt_of_lt_of_le hhi (Nat.pow_le_pow_right (by decide) hL)
      unfold F64.ofInt
      rw [round_small a.natAbs h0 hlt]
      simp only [F64.key, Nat.shiftLeft_eq]
      have he : ((bitLen a.natAbs : Int) - 53 + 1074).toNat = bitLen a.natAbs + 1021 := by omega
      rw [he]
      refine congrArg some (hcast _ _ _ ?_)
      rw [Nat.mul_assoc, ← pow_add]
      have hk : 53 - bitLen a.natAbs + (bitLen a.natAbs + 1021) = 1074 := by omega
      rw [hk, Nat.mul_comm]
    · obtain ⟨hr, hmul⟩ := round_large a.natAbs m k hm hk hmk (by omega)
      unfold F64.ofInt
      rw [hr]
      simp only [F64.key, Nat.shiftLeft_eq]
      have he : ((bitLen a.natAbs : Int) - 53 + 1074).toNat =
          (bitLen a.natAbs - 53) + 1074 := by omega
      rw [he]
      refine congrArg some (hcast _ _ _ ?_)
      rw [pow_add, ← Nat.mul_assoc, hmul, Nat.mul_comm]

/-- An integer of magnitude at most `2^53` is held exactly by a `float64`. -/
theorem exact_of_abs_le {a : Int} (h : |a| ≤ 2 ^ 53) : ExactFloat64 a := by
  have hb := abs_le.mp h
  by_cases htop : a.natAbs = 2 ^ 53
  · exact ⟨2 ^ 52, 1, by decide, by decide, by rw [htop]; rfl⟩
  · exact ⟨a.natAbs, 0, by omega, by decide, by simp⟩

theorem lt_ofInt (a b : Int) (ha : ExactFloat64 a) (hb : ExactFloat64 b) :
    F64.lt (F64.ofInt a) (F64.ofInt b) = decide (a < b) := by
  unfold F64.lt
  rw [key_ofInt a ha, key_ofInt b hb]
  simp only
  congr 1
  exact propext (mul_lt_mul_right (by positivity))

theorem eq_ofInt (a b : Int) (ha : ExactFloat64 a) (hb : ExactFloat64 b) :
    F64.eq (F64.ofInt a) (F64.ofInt b) = decide (a = b) := by
  unfold F64.eq
  rw [key_ofInt a ha, key_ofInt b hb]
  simp only
  congr 1
  exact propext (mul_left_inj' (by positivity))

theorem gt_ofInt (a b : Int) (ha : ExactFloat64 a) (hb : ExactFloat64 b) :
    F64.gt (F64.ofInt a) (F64.ofInt b) = decide (a > b) := by
  unfold F64.gt
  rw [lt_ofInt b a hb ha]

theorem le_ofInt (a b : Int) (ha : ExactFloat64 a) (hb : ExactFloat64 b) :
    F64.le (F64.ofInt a) (F64.ofInt b) = decide (a ≤ b) := by
  unfold F64.le
  rw [lt_ofInt a b ha hb, eq_ofInt a b ha hb]
  by_cases h1 : a < b
  · simp [h1, Int.le_of_lt h1]
  · by_cases h2 : a = b
    · simp [h2]
    · have : ¬ a ≤ b := by omega
      simp [h1, h2, this]

theorem ge_ofInt (a b : Int) (ha : ExactFloat64 a) (hb : ExactFloat64 b) :
    F64.ge (F64.ofInt a) (F64.ofInt b) = decide (a ≥ b) := by
  unfold F64.ge
  rw [le_ofInt b a hb ha]

theorem ne_ofInt (a b : Int) (ha : ExactFloat64 a) (hb : ExactFloat64 b) :
    F64.ne (F64.ofInt a) (F64.ofInt b) = decide (a ≠ b) := by
  unfold F64.ne
  rw [eq_ofInt a b ha hb]
  by_cases h : a = b <;> simp [h]

/-! ## Comparison of values -/

theorem compareValues_string (a b : Value) (operator : Str)
    (h : a.isString = true ∨ b.isString = true) :
    compareValues U a b operator =
      if operator = "=".toList then
        Except.ok (decide (ToLower U (formatValue a) = ToLower U (formatValue b)))
      else if operator = "!=".toList then
        Except.ok (decide (ToLower U (formatValue a) ≠ ToLower U (formatValue b)))
      else Except.error (Error.invalidStringOperator operator) := by
  unfold compareValues
  have : (a.isString || b.isString) = true := by
    rcases h with h | h <;> simp [h]
  rw [if_pos this]

theorem compareValues_number (a b : Value) (x y : F64) (operator : Str)
    (ha : a.isString = false) (hb : b.isString = false)
    (hx : toFloat64 a = some x) (hy : toFloat64 b = some y) :
    compareValues U a b operator =
      if operator = ">".toList then Except.ok (F64.gt x y)
      else if operator = "<".toList then Except.ok (F64.lt x y)
      else if operator = "=".toList then Except.ok (F64.eq x y)
      else if operator = ">=".toList then Except.ok (F64.ge x y)
      else if operator = "<=".toList then Except.ok (F64.le x y)
      else if operator = "!=".toList then Except.ok (F64.ne x y)
      else Except.error (Error.unknownOperator operator) := by
  unfold compareValues
  rw [if_neg (by simp [ha, hb]), hx, hy]

/-- An integer held as an `int` or as a `float64`. -/
theorem toFloat64_integer {v : Value} {a : Int}
    (h : v = Value.int a ∨ v = Value.float (F64.ofInt a)) :
    v.isString = false ∧ toFloat64 v = some (F64.ofInt a) := by
  rcases h with h | h <;> subst h <;> exact ⟨rfl, rfl⟩

/-! ## The claims -/

/-- C1. The rule `age > 18 AND country = 'US'` parses, and on the record
`{age, country}`, for every integer `age` that a `float64` holds exactly
(given as an `int` or as the `float64` of that value) and every string
`country`, its tree evaluates without error, to true exactly when `age > 18`
and the lower-cased `country` is `us`. -/
theorem rule_age_country_adult_us (U : Unicode) :
    ParseRule U "age > 18 AND country = 'US'".toList =
        Except.ok (operatorNode "AND".toList
          (operandNode "age".toList ">".toList "18".toList)
          (operandNode "country".toList "=".toList "US".toList)) ∧
    ∀ (age : Int) (country : Str) (v : Value), ExactFloat64 age →
      (v = Value.int age ∨ v = Value.float (F64.ofInt age)) →
      EvaluateRule U (operatorNode "AND".toList
          (operandNode "age".toList ">".toList "18".toList)
          (operandNode "country".toList "=".toList "US".toList))
        [("age".toList, v), ("country".toList, Value.str country)] =
        Except.ok (decide (age > 18 ∧ ToLower U country = "us".toList)) := by
  refine ⟨rfl, ?_⟩
  intro age country v hage hv
  obtain ⟨hs, hf⟩ := toFloat64_integer hv
  have h18 : parseValue "18".toList = Value.int 18 := by decide
  have hUS : parseValue "US".toList = Value.str "US".toList := by decide
  have hl1 : List.lookup "age".toList
      [("age".toList, v), ("country".toList, Value.str country)] = some v := rfl
  have hl2 : List.lookup "country".toList
      [("age".toList, v), ("country".toList, Value.str country)] =
        some (Value.str country) := rfl
  have hc1 : compareValues U v (Value.int 18) ">".toList = Except.ok (decide (age > 18)) := by
    rw [compareValues_number v (Value.int 18) (F64.ofInt age) (F64.ofInt 18) _ hs rfl hf rfl,
      if_pos rfl, gt_ofInt age 18 hage (exact_of_abs_le (by decide))]
  have hc2 : compareValues U (Value.str country) (Value.str "US".toList) "=".toList =
      Except.ok (decide (ToLower U country = "us".toList)) := by
    rw [compareValues_string (Value.str country) (Value.str "US".toList) "=".toList
      (Or.inl rfl), if_pos rfl]
    rfl
  unfold operatorNode operandNode
  rw [EvaluateRule_operator, evaluateChildren_cons, evaluateChildren_cons, evaluateChildren_nil,
    EvaluateRule_operand, EvaluateRule_operand, hl1, hl2, h18, hUS]
  simp only [hc1, hc2, if_pos]
  by_cases h1 : age > 18 <;> by_cases h2 : ToLower U country = "us".toList <;>
    simp [allTrue, h1, h2]

/-- C1, at the two records of the specification: `{age: 20, country: "us"}`
gives true and `{age: 15, country: "US"}` gives false. -/
theorem rule_age_country_adult_us_witness :
    EvaluateRule Unicode.inert (operatorNode "AND".toList
          (operandNode "age".toList ">".toList "18".toList)
          (operandNode "country".toList "=".toList "US".toList))
        [("age".toList, Value.float (F64.ofInt 20)), ("country".toList, Value.str "us".toList)] =
        Except.ok true ∧
    EvaluateRule Unicode.inert (operatorNode "AND".toList
          (operandNode "age".toList ">".toList "18".toList)
          (operandNode "country".toList "=".toList "US".toList))
        [("age".toList, Value.int 15), ("country".toList, Value.str "US".toList)] =
        Except.ok false :=
  ⟨(rule_age_country_adult_us Unicode.inert).2 20 "us".toList (Value.float (F64.ofInt 20))
      (exact_of_abs_le (by decide)) (Or.inr rfl),
   (rule_age_country_adult_us Unicode.inert).2 15 "US".toList (Value.int 15)
      (exact_of_abs_le (by decide)) (Or.inl rfl)⟩

/-- C2. The parser does not accept the rule
`(age > 18 OR veteran = 'true') AND country = 'US'`: after the closing
parenthesis `parseExpression` returns, `AND` is left over and `ParseRule` fails
with "unexpected tokens remaining after parsing". The tree the rule stands for,
built by hand, does evaluate to true on
`{age: 16, veteran: "true", country: "US"}`. -/
theorem rule_paren_group_then_and_rejected (U : Unicode) :
    ParseRule U "(age > 18 OR veteran = 'true') AND country = 'US'".toList =
        Except.error (Error.parsing Error.tokensRemaining) ∧
    EvaluateRule U
        (operatorNode "AND".toList
          (operatorNode "OR".toList
            (operandNode "age".toList ">".toList "18".toList)
            (operandNode "veteran".toList "=".toList "true".toList))
          (operandNode "country".toList "=".toList "US".toList))
        [("age".toList, Value.float (F64.ofInt 16)),
         ("veteran".toList, Value.str "true".toList),
         ("country".toList, Value.str "US".toList)] = Except.ok true :=
  ⟨rfl, rfl⟩

/-- C3. Combining `a > 1 or b > 2` and `c > 3` gives the text
`a > 1 or b > 2 AND c > 3`, which parses as `a > 1 OR (b > 2 AND c > 3)`: on
`{a: 2, b: 0, c: 0}` the first rule is true, the second false, and the
combined rule true, not their conjunction. -/
theorem combined_rule_is_not_the_conjunction (U : Unicode) :
    combineRuleExpressions U ["a > 1 or b > 2".toList, "c > 3".toList] =
        "a > 1 or b > 2 AND c > 3".toList ∧
    ParseRule U "a > 1 or b > 2".toList =
        Except.ok (operatorNode "OR".toList
          (operandNode "a".toList ">".toList "1".toList)
          (operandNode "b".toList ">".toList "2".toList)) ∧
    ParseRule U "c > 3".toList = Except.ok (operandNode "c".toList ">".toList "3".toList) ∧
    ParseRule U "a > 1 or b > 2 AND c > 3".toList =
        Except.ok (operatorNode "OR".toList
          (operandNode "a".toList ">".toList "1".toList)
          (operatorNode "AND".toList
            (operandNode "b".toList ">".toList "2".toList)
            (operandNode "c".toList ">".toList "3".toList))) ∧
    EvaluateRule U (operatorNode "OR".toList
          (operandNode "a".toList ">".toList "1".toList)
          (operandNode "b".toList ">".toList "2".toList))
        [("a".toList, Value.float (F64.ofInt 2)), ("b".toList, Value.float (F64.ofInt 0)),
         ("c".toList, Value.float (F64.ofInt 0))] = Except.ok true ∧
    EvaluateRule U (operandNode "c".toList ">".toList "3".toList)
        [("a".toList, Value.float (F64.ofInt 2)), ("b".toList, Value.float (F64.ofInt 0)),
         ("c".toList, Value.float (F64.ofInt 0))] = Except.ok false ∧
    EvaluateRule U (operatorNode "OR".toList
          (operandNode "a".toList ">".toList "1".toList)
          (operatorNode "AND".toList
            (operandNode "b".toList ">".toList "2".toList)
            (operandNode "c".toList ">".toList "3".toList)))
        [("a".toList, Value.float (F64.ofInt 2)), ("b".toList, Value.float (F64.ofInt 0)),
         ("c".toList, Value.float (F64.ofInt 0))] = Except.ok true :=
  ⟨rfl, rfl, rfl, rfl, rfl, rfl, rfl⟩

/-- C5. After an operand `FIELD COMPARISON VALUE` and a connective the parser
recurses on all that follows: `Parse (X c R)` succeeds exactly when `Parse R`
does, and the result is the operator node of `c` with the two children
`operand X` and `Parse R`. So `a > 1 and b > 2 and c > 3` nests to the right,
and in `a > 1 and (b > 2 or c > 3)` the group is the right child of `AND`. -/
theorem Parse_connective_nests_right (U : Unicode) :
    (∀ (f c v o : Token) (R : List Token),
      f.Typ = TokenType.FIELD → c.Typ = TokenType.COMPARISON → v.Typ = TokenType.VALUE →
      (o.Typ = TokenType.AND ∨ o.Typ = TokenType.OR) →
      ((∃ ast, Parse (f :: c :: v :: o :: R) = Except.ok ast) ↔
        (∃ right, Parse R = Except.ok right)) ∧
      (∀ right, Parse R = Except.ok right →
        Parse (f :: c :: v :: o :: R) =
          Except.ok (Node.mk "operator".toList o.Value
            [Node.mk "operand".toList c.Value [] f.Value (parseValue v.Value), right]
            [] Value.nil))) ∧
    ParseRule U "a > 1 and b > 2 and c > 3".toList =
        Except.ok (operatorNode "AND".toList
          (operandNode "a".toList ">".toList "1".toList)
          (operatorNode "AND".toList
            (operandNode "b".toList ">".toList "2".toList)
            (operandNode "c".toList ">".toList "3".toList))) ∧
    ParseRule U "a > 1 and (b > 2 or c > 3)".toList =
        Except.ok (operatorNode "AND".toList
          (operandNode "a".toList ">".toList "1".toList)
          (operatorNode "OR".toList
            (operandNode "b".toList ">".toList "2".toList)
            (operandNode "c".toList ">".toList "3".toList))) := by
  refine ⟨?_, rfl, rfl⟩
  intro f c v o R hf hc hv ho
  have hstep : Parse (f :: c :: v :: o :: R) =
      match Parse R with
      | Except.error err => Except.error err
      | Except.ok right =>
        Except.ok (operatorNode o.Value (operandNode f.Value c.Value v.Value) right) := by
    unfold Parse
    rw [parseExpression_operand_conn R hf hc hv ho]
    cases hp : parseExpression R with
    | error err => rfl
    | ok res =>
      obtain ⟨right, rest⟩ := res
      cases rest with
      | nil => rfl
      | cons r rest1 => rfl
  constructor
  · rw [hstep]
    cases hR : Parse R with
    | error err => simp
    | ok right => simp
  · intro right hR
    rw [hstep, hR]
    rfl

/-- C5 at the tokens of `x > 1 OR y < 2`: the text after `OR` parses to the
operand `y < 2`, so the whole parses to the `OR` node of the two operands. -/
theorem Parse_connective_nests_right_witness :
    Parse [⟨TokenType.FIELD, "x".toList⟩, ⟨TokenType.COMPARISON, ">".toList⟩,
        ⟨TokenType.VALUE, "1".toList⟩, ⟨TokenType.OR, "OR".toList⟩,
        ⟨TokenType.FIELD, "y".toList⟩, ⟨TokenType.COMPARISON, "<".toList⟩,
        ⟨TokenType.VALUE, "2".toList⟩] =
      Except.ok (Node.mk "operator".toList "OR".toList
        [Node.mk "operand".toList ">".toList [] "x".toList (parseValue "1".toList),
         Node.mk "operand".toList "<".toList [] "y".toList (Value.int 2)]
        [] Value.nil) :=
  ((Parse_connective_nests_right Unicode.inert).1 ⟨TokenType.FIELD, "x".toList⟩
    ⟨TokenType.COMPARISON, ">".toList⟩ ⟨TokenType.VALUE, "1".toList⟩
    ⟨TokenType.OR, "OR".toList⟩
    [⟨TokenType.FIELD, "y".toList⟩, ⟨TokenType.COMPARISON, "<".toList⟩,
      ⟨TokenType.VALUE, "2".toList⟩] rfl rfl rfl (Or.inr rfl)).2 _ rfl

/-- In a phrase of the grammar no closing parenthesis is followed by a
connective. -/
theorem Derives_no_rparen_connective {p : List Token} (hp : Derives p) :
    ∀ (pre post : List Token) (r o : Token), p = pre ++ r :: o :: post →
      r.Typ = TokenType.RPAREN → ¬ (o.Typ = TokenType.AND ∨ o.Typ = TokenType.OR) := by
  induction hp with
  | @paren l r' e hl hr' _ ih =>
    intro pre post r o heq hr ho
    cases pre with
    | nil =>
      simp only [List.nil_append, List.cons.injEq] at heq
      rw [← heq.1, hl] at hr
      cases hr
    | cons x pre1 =>
      simp only [List.cons_append, List.cons.injEq] at heq
      obtain ⟨-, heq⟩ := heq
      rcases List.eq_nil_or_concat post with hpost | ⟨post1, z, hpost⟩
      · subst hpost
        have h1 : e ++ [r'] = (pre1 ++ [r]) ++ [o] := by rw [heq]; simp
        have h2 := List.append_inj_right' h1 rfl
        simp only [List.cons.injEq, and_true] at h2
        rw [← h2, hr'] at ho
        rcases ho with ho | ho <;> cases ho
      · subst hpost
        have h1 : e ++ [r'] = (pre1 ++ r :: o :: post1) ++ [z] := by rw [heq]; simp
        have h2 := List.append_inj_left' h1 rfl
        exact ih pre1 post1 r o h2 hr ho
  | @operand f c v hf hc hv =>
    intro pre post r o heq hr _
    cases pre with
    | nil =>
      simp only [List.nil_append, List.cons.injEq] at heq
      rw [← heq.1, hf] at hr; cases hr
    | cons x pre1 =>
      cases pre1 with
      | nil =>
        simp only [List.cons_append, List.nil_append, List.cons.injEq] at heq
        rw [← heq.2.1, hc] at hr; cases hr
      | cons y pre2 =>
        cases pre2 with
        | nil => simp at heq
        | cons z pre3 => simp at heq
  | @chain f c v o' e hf hc hv ho' _ ih =>
    intro pre post r o heq hr ho
    cases pre with
    | nil =>
      simp only [List.nil_append, List.cons.injEq] at heq
      rw [← heq.1, hf] at hr; cases hr
    | cons x pre1 =>
      cases pre1 with
      | nil =>
        simp only [List.cons_append, List.nil_append, List.cons.injEq] at heq
        rw [← heq.2.1, hc] at hr; cases hr
      | cons y pre2 =>
        cases pre2 with
        | nil =>
          simp only [List.cons_append, List.nil_append, List.cons.injEq] at heq
          rw [← heq.2.2.1, hv] at hr; cases hr
        | cons z pre3 =>
          cases pre3 with
          | nil =>
            simp only [List.cons_append, List.nil_append, List.cons.injEq] at heq
            rw [← heq.2.2.2.1] at hr
            rcases ho' with h | h <;> rw [h] at hr <;> cases hr
          | cons w pre4 =>
            simp only [List.cons_append, List.cons.injEq] at heq
            exact ih pre4 post r o heq.2.2.2.2 hr ho

/-- C6. A token sequence in which a closing parenthesis is immediately followed
by `AND` or `OR` is rejected by `Parse`: a parenthesized group is never the
left operand of a connective. -/
theorem Parse_rejects_connective_after_rparen (ts pre post : List Token) (r o : Token)
    (hts : ts = pre ++ r :: o :: post) (hr : r.Typ = TokenType.RPAREN)
    (ho : o.Typ = TokenType.AND ∨ o.Typ = TokenType.OR) :
    ∃ err, Parse ts = Except.error err := by
  cases h : Parse ts with
  | error err => exact ⟨err, rfl⟩
  | ok ast =>
    have hd : Derives ts := (Parse_ok_iff_Derives ts).mp ⟨ast, h⟩
    exact absurd ho (Derives_no_rparen_connective hd pre post r o hts hr)

/-- C6 at the tokens of `(a > 1) OR b < 2`. -/
theorem Parse_rejects_connective_after_rparen_witness :
    Tokenize Unicode.inert "(a > 1) OR b < 2".toList =
      Except.ok ([⟨TokenType.LPAREN, "(".toList⟩, ⟨TokenType.FIELD, "a".toList⟩,
          ⟨TokenType.COMPARISON, ">".toList⟩, ⟨TokenType.VALUE, "1".toList⟩] ++
        ⟨TokenType.RPAREN, ")".toList⟩ :: ⟨TokenType.OR, "OR".toList⟩ ::
          [⟨TokenType.FIELD, "b".toList⟩, ⟨TokenType.COMPARISON, "<".toList⟩,
            ⟨TokenType.VALUE, "2".toList⟩]) ∧
    ∃ err, Parse ([⟨TokenType.LPAREN, "(".toList⟩, ⟨TokenType.FIELD, "a".toList⟩,
          ⟨TokenType.COMPARISON, ">".toList⟩, ⟨TokenType.VALUE, "1".toList⟩] ++
        ⟨TokenType.RPAREN, ")".toList⟩ :: ⟨TokenType.OR, "OR".toList⟩ ::
          [⟨TokenType.FIELD, "b".toList⟩, ⟨TokenType.COMPARISON, "<".toList⟩,
            ⟨TokenType.VALUE, "2".toList⟩]) = Except.error err :=
  ⟨rfl, Parse_rejects_connective_after_rparen _ _ _ _ _ rfl rfl (Or.inr rfl)⟩

/-- C7. If some operand leaf of the tree, reached through operator nodes,
names a field that is not a key of the record, `EvaluateRule` returns an
error: the children of an operator are all evaluated before `AND` or `OR` is
applied, so no earlier sibling hides the missing field. -/
theorem EvaluateRule_missing_field_is_error (U : Unicode) (data : Record) (node : Node)
    (hmissing : MissingField data node) :
    ∃ err, EvaluateRule U node data = Except.error err := by
  induction hmissing with
  | leaf operator field value hnone =>
    exact ⟨Error.fieldNotFound field, by rw [EvaluateRule_operand, hnone]⟩
  | inside operator field value children child hmem _ ih =>
    obtain ⟨err, he⟩ := evaluateChildren_error data children child hmem ih
    exact ⟨err, by rw [EvaluateRule_operator, he]⟩

/-- C7 at the rule `x > 1 OR y > 0` and the record `{x: 5}`: the first operand
is true, the field `y` of the second is missing, and the evaluation fails. The
rule `x > 1` fails on the empty record, with "field x not found in data". -/
theorem EvaluateRule_missing_field_is_error_witness :
    (∃ err, EvaluateRule Unicode.inert
      (Node.mk "operator".toList "OR".toList
        [Node.mk "operand".toList ">".toList [] "x".toList (Value.int 1),
         Node.mk "operand".toList ">".toList [] "y".toList (Value.int 0)] [] Value.nil)
      [("x".toList, Value.int 5)] = Except.error err) ∧
    ParseRule Unicode.inert "x > 1".toList =
      Except.ok (Node.mk "operand".toList ">".toList [] "x".toList (Value.int 1)) ∧
    (∃ err, EvaluateRule Unicode.inert (Node.mk "operand".toList ">".toList [] "x".toList (Value.int 1)) [] =
      Except.error err) ∧
    EvaluateRule Unicode.inert (Node.mk "operand".toList ">".toList [] "x".toList (Value.int 1)) [] =
      Except.error (Error.fieldNotFound "x".toList) :=
  ⟨EvaluateRule_missing_field_is_error Unicode.inert _ _
      (MissingField.inside _ _ _ _
        (Node.mk "operand".toList ">".toList [] "y".toList (Value.int 0))
        (by simp) (MissingField.leaf _ _ _ rfl)),
   rfl,
   EvaluateRule_missing_field_is_error Unicode.inert _ _ (MissingField.leaf _ _ _ rfl),
   rfl⟩

/-- C8. For an operator node all of whose children evaluate without error:
with `AND` the result is true exactly when every child is true, with `OR`
exactly when some child is true, and with any other connective the evaluation
is an error. -/
theorem EvaluateRule_operator_node (U : Unicode) (data : Record) (operator field : Str)
    (value : Value) (children : List Node)
    (hall : ∀ child, child ∈ children → ∃ b, EvaluateRule U child data = Except.ok b) :
    (operator = "AND".toList →
      ∃ b, EvaluateRule U (Node.mk "operator".toList operator children field value) data =
          Except.ok b ∧
        (b = true ↔ ∀ child, child ∈ children → EvaluateRule U child data = Except.ok true)) ∧
    (operator = "OR".toList →
      ∃ b, EvaluateRule U (Node.mk "operator".toList operator children field value) data =
          Except.ok b ∧
        (b = true ↔ ∃ child, child ∈ children ∧ EvaluateRule U child data = Except.ok true)) ∧
    (operator ≠ "AND".toList → operator ≠ "OR".toList →
      ∃ err, EvaluateRule U (Node.mk "operator".toList operator children field value) data =
        Except.error err) := by
  obtain ⟨results, hres, hand, hor⟩ := evaluateChildren_ok data children hall
  refine ⟨?_, ?_, ?_⟩
  · intro hop
    exact ⟨allTrue results, by rw [EvaluateRule_operator, hres]; simp [hop], hand⟩
  · intro hop
    refine ⟨anyTrue results, ?_, hor⟩
    rw [EvaluateRule_operator, hres]
    subst hop
    rfl
  · intro h1 h2
    refine ⟨Error.unknownOperator operator, ?_⟩
    rw [EvaluateRule_operator, hres]
    show (if operator = "AND".toList then Except.ok (allTrue results)
      else if operator = "OR".toList then Except.ok (anyTrue results)
      else Except.error (Error.unknownOperator operator)) = _
    rw [if_neg h1, if_neg h2]

/-- C8 at the children `x > 1` and `y > 0` on the record `{x: 5, y: 0}`, and
at an operator node without children: `AND` of no child is true, `OR` of no
child is false. -/
theorem EvaluateRule_operator_node_witness :
    (∃ b, EvaluateRule Unicode.inert (Node.mk "operator".toList "OR".toList
          [Node.mk "operand".toList ">".toList [] "x".toList (Value.int 1),
           Node.mk "operand".toList ">".toList [] "y".toList (Value.int 0)] [] Value.nil)
          [("x".toList, Value.int 5), ("y".toList, Value.int 0)] = Except.ok b ∧
        (b = true ↔ ∃ child, child ∈
            [Node.mk "operand".toList ">".toList [] "x".toList (Value.int 1),
             Node.mk "operand".toList ">".toList [] "y".toList (Value.int 0)] ∧
          EvaluateRule Unicode.inert child [("x".toList, Value.int 5), ("y".toList, Value.int 0)] =
            Except.ok true)) ∧
    EvaluateRule Unicode.inert (Node.mk "operator".toList "AND".toList [] [] Value.nil) [] = Except.ok true ∧
    EvaluateRule Unicode.inert (Node.mk "operator".toList "OR".toList [] [] Value.nil) [] = Except.ok false :=
  ⟨(EvaluateRule_operator_node Unicode.inert [("x".toList, Value.int 5), ("y".toList, Value.int 0)]
      "OR".toList [] Value.nil
      [Node.mk "operand".toList ">".toList [] "x".toList (Value.int 1),
       Node.mk "operand".toList ">".toList [] "y".toList (Value.int 0)]
      (by
        intro child h
        simp only [List.mem_cons, List.mem_singleton, List.not_mem_nil, or_false] at h
        rcases h with h | h <;> subst h
        · exact ⟨true, rfl⟩
        · exact ⟨false, rfl⟩)).2.1 rfl,
   rfl, rfl⟩

/-- C9. A numeric operand compares the value of the record with the literal,
in that order: for integers `a` (the record value) and `b` (the literal) with
`|a|, |b| ≤ 2^53`, each held as an `int` or as the `float64` of that value,
the operators `>`, `<`, `=`, `>=`, `<=`, `!=` return, without error, the truth
of `a > b`, `a < b`, `a = b`, `a ≥ b`, `a ≤ b`, `a ≠ b`, and every other
operator is an error. -/
theorem EvaluateRule_numeric_operand (U : Unicode) (data : Record) (field operator : Str)
    (a b : Int) (va vb : Value) (ha : |a| ≤ 2 ^ 53) (hb : |b| ≤ 2 ^ 53)
    (hva : va = Value.int a ∨ va = Value.float (F64.ofInt a))
    (hvb : vb = Value.int b ∨ vb = Value.float (F64.ofInt b))
    (hdata : data.lookup field = some va) :
    (operator = ">".toList →
      EvaluateRule U (Node.mk "operand".toList operator [] field vb) data =
        Except.ok (decide (a > b))) ∧
    (operator = "<".toList →
      EvaluateRule U (Node.mk "operand".toList operator [] field vb) data =
        Except.ok (decide (a < b))) ∧
    (operator = "=".toList →
      EvaluateRule U (Node.mk "operand".toList operator [] field vb) data =
        Except.ok (decide (a = b))) ∧
    (operator = ">=".toList →
      EvaluateRule U (Node.mk "operand".toList operator [] field vb) data =
        Except.ok (decide (a ≥ b))) ∧
    (operator = "<=".toList →
      EvaluateRule U (Node.mk "operand".toList operator [] field vb) data =
        Except.ok (decide (a ≤ b))) ∧
    (operator = "!=".toList →
      EvaluateRule U (Node.mk "operand".toList operator [] field vb) data =
        Except.ok (decide (a ≠ b))) ∧
    (operator ∉ [">".toList, "<".toList, "=".toList, ">=".toList, "<=".toList, "!=".toList] →
      ∃ err, EvaluateRule U (Node.mk "operand".toList operator [] field vb) data =
        Except.error err) := by
  obtain ⟨hsa, hfa⟩ := toFloat64_integer hva
  obtain ⟨hsb, hfb⟩ := toFloat64_integer hvb
  have ha' := exact_of_abs_le ha
  have hb' := exact_of_abs_le hb
  have hev : EvaluateRule U (Node.mk "operand".toList operator [] field vb) data =
      compareValues U va vb operator := by
    rw [EvaluateRule_operand, hdata]
  rw [hev, compareValues_number va vb _ _ operator hsa hsb hfa hfb]
  refine ⟨?_, ?_, ?_, ?_, ?_, ?_, ?_⟩
  · intro h; subst h; rw [if_pos rfl, gt_ofInt a b ha' hb']
  · intro h; subst h; rw [if_neg (by decide), if_pos rfl, lt_ofInt a b ha' hb']
  · intro h; subst h; rw [if_neg (by decide), if_neg (by decide), if_pos rfl, eq_ofInt a b ha' hb']
  · intro h; subst h
    rw [if_neg (by decide), if_neg (by decide), if_neg (by decide), if_pos rfl,
      ge_ofInt a b ha' hb']
  · intro h; subst h
    rw [if_neg (by decide), if_neg (by decide), if_neg (by decide), if_neg (by decide),
      if_pos rfl, le_ofInt a b ha' hb']
  · intro h; subst h
    rw [if_neg (by decide), if_neg (by decide), if_neg (by decide), if_neg (by decide),
      if_neg (by decide), if_pos rfl, ne_ofInt a b ha' hb']
  · intro h
    simp only [List.mem_cons, List.mem_singleton, List.not_mem_nil, or_false, not_or] at h
    obtain ⟨h1, h2, h3, h4, h5, h6⟩ := h
    exact ⟨Error.unknownOperator operator, by
      rw [if_neg h1, if_neg h2, if_neg h3, if_neg h4, if_neg h5, if_neg h6]⟩

/-- C9 at the record value 5 and the literal 7: `5 > 7` is false and `5 <= 7`
is true, so the record value is the left side. -/
theorem EvaluateRule_numeric_operand_witness :
    EvaluateRule Unicode.inert (Node.mk "operand".toList ">".toList [] "n".toList (Value.int 7))
        [("n".toList, Value.float (F64.ofInt 5))] = Except.ok (decide ((5 : Int) > 7)) ∧
    EvaluateRule Unicode.inert (Node.mk "operand".toList "<=".toList [] "n".toList (Value.int 7))
        [("n".toList, Value.float (F64.ofInt 5))] = Except.ok (decide ((5 : Int) ≤ 7)) :=
  ⟨(EvaluateRule_numeric_operand Unicode.inert [("n".toList, Value.float (F64.ofInt 5))] "n".toList
      ">".toList 5 7 (Value.float (F64.ofInt 5)) (Value.int 7) (by decide) (by decide)
      (Or.inr rfl) (Or.inl rfl) rfl).1 rfl,
   (EvaluateRule_numeric_operand Unicode.inert [("n".toList, Value.float (F64.ofInt 5))] "n".toList
      "<=".toList 5 7 (Value.float (F64.ofInt 5)) (Value.int 7) (by decide) (by decide)
      (Or.inr rfl) (Or.inl rfl) rfl).2.2.2.2.1 rfl⟩

theorem tokenizeFrom_nil (skip : Nat) (tokens : List Token) :
    tokenizeFrom U [] skip tokens = Except.ok tokens := by
  cases skip <;> rfl

theorem tokenizeFrom_succ (c : Char) (cs : List Char) (skip : Nat) (tokens : List Token) :
    tokenizeFrom U (c :: cs) (skip + 1) tokens = tokenizeFrom U cs skip tokens := rfl

theorem tokenizeFrom_zero (c : Char) (cs : List Char) (tokens : List Token) :
    tokenizeFrom U (c :: cs) 0 tokens =
    if isSpace c then tokenizeFrom U cs 0 tokens
    else if c = '(' then tokenizeFrom U cs 0 (tokens ++ [⟨TokenType.LPAREN, ['(']⟩])
    else if c = ')' then tokenizeFrom U cs 0 (tokens ++ [⟨TokenType.RPAREN, [')']⟩])
    else if c = '\'' then
      if (cs.takeWhile (fun x => x != '\'')).length ≥ cs.length then
        Except.error Error.unterminatedString
      else tokenizeFrom U cs ((cs.takeWhile (fun x => x != '\'')).length + 1)
        (tokens ++ [⟨TokenType.VALUE, TrimSpace U (cs.takeWhile (fun x => x != '\''))⟩])
    else if isLetter c then
      tokenizeFrom U cs (((c :: cs).takeWhile (fun x => isLetter x || isDigit x)).length - 1)
        (tokens ++ [wordToken U (TrimSpace U ((c :: cs).takeWhile (fun x => isLetter x || isDigit x)))])
    else if isDigit c then
      tokenizeFrom U cs (((c :: cs).takeWhile (fun x => isDigit x || x = '.')).length - 1)
        (tokens ++ [⟨TokenType.VALUE,
          TrimSpace U ((c :: cs).takeWhile (fun x => isDigit x || x = '.'))⟩])
    else if c = '>' || c = '<' || c = '=' then
      tokenizeFrom U cs 0 (tokens ++ [⟨TokenType.COMPARISON, [c]⟩])
    else Except.error (Error.unexpectedCharacter c) := rfl

/-- Bytes that a token covers are passed over. -/
theorem tokenizeFrom_skip (xs rest : List Char) (tokens : List Token) :
    tokenizeFrom U (xs ++ rest) xs.length tokens = tokenizeFrom U rest 0 tokens := by
  induction xs with
  | nil => rfl
  | cons x xs ih => exact ih

/-- A skip that reaches the end of the input ends the loop. -/
theorem tokenizeFrom_skip_all (xs : List Char) (k : Nat) (tokens : List Token)
    (h : xs.length ≤ k) : tokenizeFrom U xs k tokens = Except.ok tokens := by
  induction xs generalizing k with
  | nil => exact tokenizeFrom_nil k tokens
  | cons x xs ih =>
    cases k with
    | zero => simp at h
    | succ k => exact ih k (by simpa using h)

theorem isLetter_iff (c : Char) :
    isLetter c = true ↔ (97 ≤ c.toNat ∧ c.toNat ≤ 122) ∨ (65 ≤ c.toNat ∧ c.toNat ≤ 90) ∨
      c.toNat = 170 ∨ c.toNat = 181 ∨ c.toNat = 186 ∨ (192 ≤ c.toNat ∧ c.toNat ≤ 214) ∨
      (216 ≤ c.toNat ∧ c.toNat ≤ 246) ∨ (248 ≤ c.toNat ∧ c.toNat ≤ 255) := by
  have ha : 'a'.toNat = 97 := rfl
  have hz : 'z'.toNat = 122 := rfl
  have hA : 'A'.toNat = 65 := rfl
  have hZ : 'Z'.toNat = 90 := rfl
  simp [isLetter, ha, hz, hA, hZ, or_assoc]

theorem isDigit_iff (c : Char) : isDigit c = true ↔ 48 ≤ c.toNat ∧ c.toNat ≤ 57 := by
  have h0 : '0'.toNat = 48 := rfl
  have h9 : '9'.toNat = 57 := rfl
  simp [isDigit, h0, h9]

theorem isSpace_iff (c : Char) :
    isSpace c = true ↔
      c.toNat = 9 ∨ c.toNat = 10 ∨ c.toNat = 11 ∨ c.toNat = 12 ∨ c.toNat = 13 ∨ c.toNat = 32 ∨
        c.toNat = 133 ∨ c.toNat = 160 := by
  have hnat : ∀ (d : Char), c = d ↔ c.toNat = d.toNat := by
    intro d
    constructor
    · intro h; rw [h]
    · intro h
      apply Char.ext
      apply UInt32.ext
      exact h
  unfold isSpace
  simp only [Bool.or_eq_true, decide_eq_true_eq, hnat]
  have h1 : '\t'.toNat = 9 := rfl
  have h2 : '\n'.toNat = 10 := rfl
  have h3 : (Char.ofNat 11).toNat = 11 := rfl
  have h4 : (Char.ofNat 12).toNat = 12 := rfl
  have h5 : '\r'.toNat = 13 := rfl
  have h6 : ' '.toNat = 32 := rfl
  have h7 : (Char.ofNat 0x85).toNat = 133 := rfl
  have h8 : (Char.ofNat 0xA0).toNat = 160 := rfl
  rw [h1, h2, h3, h4, h5, h6, h7, h8]
  tauto

theorem char_eq_iff_toNat (c d : Char) : c = d ↔ c.toNat = d.toNat := by
  constructor
  · intro h; rw [h]
  · intro h
    apply Char.ext
    apply UInt32.ext
    exact h

theorem isLetter_not_space {c : Char} (h : isLetter c = true) : isSpace c = false := by
  rw [Bool.eq_false_iff]
  intro hs
  rw [isSpace_iff] at hs
  rw [isLetter_iff] at h
  omega

theorem isDigit_not_space {c : Char} (h : isDigit c = true) : isSpace c = false := by
  rw [Bool.eq_false_iff]
  intro hs
  rw [isSpace_iff] at hs
  rw [isDigit_iff] at h
  omega

theorem isDigit_not_letter {c : Char} (h : isDigit c = true) : isLetter c = false := by
  rw [Bool.eq_false_iff]
  intro hs
  rw [isLetter_iff] at hs
  rw [isDigit_iff] at h
  omega

theorem takeWhile_cons_length_pred (p : Char → Bool) (c : Char) (cs : List Char)
    (h : p c = true) :
    (c :: cs).takeWhile p = c :: cs.takeWhile p ∧
      ((c :: cs).takeWhile p).length - 1 = (cs.takeWhile p).length := by
  have : (c :: cs).takeWhile p = c :: cs.takeWhile p := by simp [List.takeWhile, h]
  exact ⟨this, by rw [this]; simp⟩

theorem tokenizeFrom_skip_takeWhile (p : Char → Bool) (cs : List Char) (tokens : List Token) :
    tokenizeFrom U cs (cs.takeWhile p).length tokens = tokenizeFrom U (cs.dropWhile p) 0 tokens := by
  have h := @tokenizeFrom_skip U (cs.takeWhile p) (cs.dropWhile p) tokens
  rwa [List.takeWhile_append_dropWhile] at h

/-- A white space is passed over. -/
theorem tokenizeFrom_space {c : Char} (cs : List Char) (tokens : List Token)
    (h : isSpace c = true) :
    tokenizeFrom U (c :: cs) 0 tokens = tokenizeFrom U cs 0 tokens := by
  rw [tokenizeFrom_zero, if_pos h]

/-- A letter starts a word, which runs over the letters and digits that follow. -/
theorem tokenizeFrom_word {c : Char} (cs : List Char) (tokens : List Token)
    (h : isLetter c = true) :
    tokenizeFrom U (c :: cs) 0 tokens =
      tokenizeFrom U (cs.dropWhile (fun x => isLetter x || isDigit x)) 0
        (tokens ++ [wordToken U (TrimSpace U (c :: cs.takeWhile (fun x => isLetter x || isDigit x)))]) := by
  have hs := isLetter_not_space h
  have h1 : c ≠ '(' := by intro he; subst he; revert h; decide
  have h2 : c ≠ ')' := by intro he; subst he; revert h; decide
  have h3 : c ≠ '\'' := by intro he; subst he; revert h; decide
  obtain ⟨ht, hl⟩ := takeWhile_cons_length_pred (fun x => isLetter x || isDigit x) c cs
    (by simp [h])
  rw [tokenizeFrom_zero, if_neg (by simp [hs]), if_neg h1, if_neg h2, if_neg h3, if_pos h, hl, ht]
  rw [tokenizeFrom_skip_takeWhile]

/-- A digit starts a numeral, which runs over the digits and points that follow. -/
theorem tokenizeFrom_number {c : Char} (cs : List Char) (tokens : List Token)
    (h : isDigit c = true) :
    tokenizeFrom U (c :: cs) 0 tokens =
      tokenizeFrom U (cs.dropWhile (fun x => isDigit x || x = '.')) 0
        (tokens ++ [⟨TokenType.VALUE,
          TrimSpace U (c :: cs.takeWhile (fun x => isDigit x || x = '.'))⟩]) := by
  have hs := isDigit_not_space h
  have hl' := isDigit_not_letter h
  have h1 : c ≠ '(' := by intro he; subst he; revert h; decide
  have h2 : c ≠ ')' := by intro he; subst he; revert h; decide
  have h3 : c ≠ '\'' := by intro he; subst he; revert h; decide
  obtain ⟨ht, hl⟩ := takeWhile_cons_length_pred (fun x => isDigit x || x = '.') c cs
    (by simp [h])
  rw [tokenizeFrom_zero, if_neg (by simp [hs]), if_neg h1, if_neg h2, if_neg h3,
    if_neg (by simp [hl']), if_pos h, hl, ht]
  rw [tokenizeFrom_skip_takeWhile]

theorem takeWhile_not_quote (lit rest : List Char) (h : '\'' ∉ lit) :
    (lit ++ '\'' :: rest).takeWhile (fun x => x != '\'') = lit := by
  induction lit with
  | nil => simp [List.takeWhile]
  | cons x xs ih =>
    have hx : x ≠ '\'' := fun he => h (by simp [he])
    have hxs : '\'' ∉ xs := fun he => h (List.mem_cons_of_mem x he)
    simp [List.takeWhile_cons, hx, ih hxs]

theorem takeWhile_no_quote (cs : List Char) (h : '\'' ∉ cs) :
    cs.takeWhile (fun x => x != '\'') = cs := by
  induction cs with
  | nil => rfl
  | cons x xs ih =>
    have hx : x ≠ '\'' := fun he => h (by simp [he])
    have hxs : '\'' ∉ xs := fun he => h (List.mem_cons_of_mem x he)
    simp [List.takeWhile_cons, hx, ih hxs]

/-- A quote without a closing quote is an error. -/
theorem tokenizeFrom_quote_open (cs : List Char) (tokens : List Token) (h : '\'' ∉ cs) :
    tokenizeFrom U ('\'' :: cs) 0 tokens = Except.error Error.unterminatedString := by
  rw [tokenizeFrom_zero, if_neg (by decide), if_neg (by decide), if_neg (by decide), if_pos rfl,
    takeWhile_no_quote cs h, if_pos (Nat.le_refl _)]

/-- A quoted literal runs to the next quote and is one `VALUE` token. -/
theorem tokenizeFrom_quote (lit rest : List Char) (tokens : List Token) (h : '\'' ∉ lit) :
    tokenizeFrom U ('\'' :: (lit ++ '\'' :: rest)) 0 tokens =
      tokenizeFrom U rest 0 (tokens ++ [⟨TokenType.VALUE, TrimSpace U lit⟩]) := by
  rw [tokenizeFrom_zero, if_neg (by decide), if_neg (by decide), if_neg (by decide), if_pos rfl,
    takeWhile_not_quote lit rest h, if_neg (by simp)]
  have : lit ++ '\'' :: rest = (lit ++ ['\'']) ++ rest := by simp
  rw [this]
  have hlen : lit.length + 1 = (lit ++ ['\'']).length := by simp
  rw [hlen, tokenizeFrom_skip]

theorem dropWhile_head_neg (p : Char → Bool) (s : List Char)
    (h : ∀ c, s.head? = some c → p c = false) : s.dropWhile p = s := by
  cases s with
  | nil => rfl
  | cons c cs =>
    have := h c rfl
    simp [List.dropWhile_cons, this]

/-! ### ASCII text -/

theorem isASCII_iff (s : Str) : isASCII s = true ↔ IsASCII s := by
  unfold isASCII IsASCII
  simp [List.all_eq_true]

theorem IsASCII_nil : IsASCII [] := by
  intro c hc
  cases hc

theorem IsASCII_cons {c : Char} {s : Str} : IsASCII (c :: s) ↔ c.toNat < 128 ∧ IsASCII s := by
  unfold IsASCII
  simp

theorem IsASCII_append {s t : Str} : IsASCII (s ++ t) ↔ IsASCII s ∧ IsASCII t := by
  unfold IsASCII
  simp only [List.mem_append]
  constructor
  · intro h
    exact ⟨fun c hc => h c (Or.inl hc), fun c hc => h c (Or.inr hc)⟩
  · rintro ⟨h1, h2⟩ c (hc | hc)
    · exact h1 c hc
    · exact h2 c hc

theorem IsASCII_of_mem {s t : Str} (h : IsASCII s) (hsub : ∀ c, c ∈ t → c ∈ s) : IsASCII t :=
  fun c hc => h c (hsub c hc)

theorem IsASCII_takeWhile {s : Str} (p : Char → Bool) (h : IsASCII s) :
    IsASCII (s.takeWhile p) :=
  IsASCII_of_mem h (fun _ hc => (List.takeWhile_sublist p).subset hc)

theorem IsASCII_dropWhile {s : Str} (p : Char → Bool) (h : IsASCII s) :
    IsASCII (s.dropWhile p) :=
  IsASCII_of_mem h (fun _ hc => (List.dropWhile_sublist p).subset hc)

/-- On ASCII text `strings.ToLower` maps the bytes one by one. -/
theorem ToLower_ascii {s : Str} (h : IsASCII s) : ToLower U s = s.map Char.toLower := by
  unfold ToLower
  rw [if_pos ((isASCII_iff s).mpr h)]

/-- On ASCII text `strings.ToUpper` maps the bytes one by one. -/
theorem ToUpper_ascii {s : Str} (h : IsASCII s) : ToUpper U s = s.map Char.toUpper := by
  unfold ToUpper
  rw [if_pos ((isASCII_iff s).mpr h)]

/-- On ASCII text `strings.TrimSpace` cuts the white space bytes at both ends. -/
theorem TrimSpace_ascii {s : Str} (h : IsASCII s) :
    TrimSpace U s = ((s.dropWhile isSpace).reverse.dropWhile isSpace).reverse := by
  unfold TrimSpace
  rw [if_pos ((isASCII_iff s).mpr h)]

theorem IsASCII_TrimSpace {s : Str} (h : IsASCII s) : IsASCII (TrimSpace U s) := by
  rw [TrimSpace_ascii h]
  apply IsASCII_of_mem h
  intro c hc
  rw [List.mem_reverse] at hc
  have h1 := (List.dropWhile_sublist isSpace).subset hc
  rw [List.mem_reverse] at h1
  exact (List.dropWhile_sublist isSpace).subset h1

theorem toLower_ascii_lt : ∀ n, n < 128 → (Char.ofNat n).toLower.toNat < 128 := by
  decide

theorem IsASCII_map_toLower {s : Str} (h : IsASCII s) : IsASCII (s.map Char.toLower) := by
  intro c hc
  obtain ⟨d, hd, rfl⟩ := List.mem_map.mp hc
  have := toLower_ascii_lt d.toNat (h d hd)
  rwa [Char.ofNat_toNat] at this

theorem IsASCII_ToLower {s : Str} (h : IsASCII s) : IsASCII (ToLower U s) := by
  rw [ToLower_ascii h]
  exact IsASCII_map_toLower h

/-- An ASCII text that neither starts nor ends with white space is its own
trimming. -/
theorem TrimSpace_eq_self (s : Str) (ha : IsASCII s)
    (h1 : ∀ c, s.head? = some c → isSpace c = false)
    (h2 : ∀ c, s.getLast? = some c → isSpace c = false) : TrimSpace U s = s := by
  rw [TrimSpace_ascii ha]
  rw [dropWhile_head_neg isSpace s h1, dropWhile_head_neg isSpace s.reverse, List.reverse_reverse]
  intro c hc
  rw [List.head?_reverse] at hc
  exact h2 c hc

theorem TrimSpace_of_no_space (s : Str) (ha : IsASCII s) (h : ∀ c, c ∈ s → isSpace c = false) :
    TrimSpace U s = s := by
  apply TrimSpace_eq_self s ha
  · intro c hc
    exact h c (List.mem_of_mem_head? hc)
  · intro c hc
    exact h c (List.mem_of_mem_getLast? hc)

theorem toLower_of_not_upper (c : Char) (h : ¬ (65 ≤ c.toNat ∧ c.toNat ≤ 90)) :
    c.toLower = c := by
  unfold Char.toLower
  simp only [ge_iff_le]
  rw [if_neg h]

theorem toLower_toUpper_upper :
    ∀ n, n < 91 → 65 ≤ n → (Char.ofNat n).toLower.toUpper = (Char.ofNat n).toUpper := by
  decide

theorem toLower_toLower_upper :
    ∀ n, n < 91 → 65 ≤ n → (Char.ofNat n).toLower.toLower = (Char.ofNat n).toLower := by
  decide

theorem toLower_toUpper (c : Char) : c.toLower.toUpper = c.toUpper := by
  by_cases h : 65 ≤ c.toNat ∧ c.toNat ≤ 90
  · have := toLower_toUpper_upper c.toNat (by omega) h.1
    rwa [Char.ofNat_toNat] at this
  · rw [toLower_of_not_upper c h]

theorem toLower_toLower (c : Char) : c.toLower.toLower = c.toLower := by
  by_cases h : 65 ≤ c.toNat ∧ c.toNat ≤ 90
  · have := toLower_toLower_upper c.toNat (by omega) h.1
    rwa [Char.ofNat_toNat] at this
  · rw [toLower_of_not_upper c h, toLower_of_not_upper c h]

theorem ToLower_ToLower (s : Str) (h : IsASCII s) : ToLower U (ToLower U s) = ToLower U s := by
  rw [ToLower_ascii (IsASCII_ToLower h), ToLower_ascii h]
  rw [List.map_map]
  apply List.map_congr_left
  intro c _
  exact toLower_toLower c

theorem ToUpper_ToLower (s : Str) (h : IsASCII s) : ToUpper U (ToLower U s) = ToUpper U s := by
  rw [ToUpper_ascii (IsASCII_ToLower h), ToLower_ascii h, ToUpper_ascii h]
  rw [List.map_map]
  apply List.map_congr_left
  intro c _
  exact toLower_toUpper c

/-- A property of tokens that holds of every token the loop can append holds
of every token of its result; the words that the loop cuts out of the text are
made of bytes of the text, here the bytes with the property `Q`. -/
theorem tokenizeFrom_forall (P : Token → Prop) (Q : Char → Prop)
    (hl : P ⟨TokenType.LPAREN, ['(']⟩) (hr : P ⟨TokenType.RPAREN, [')']⟩)
    (hv : ∀ s, P ⟨TokenType.VALUE, s⟩)
    (hw : ∀ w, (∀ x, x ∈ w → Q x) → P (wordToken U (TrimSpace U w)))
    (hc : ∀ c, c = '>' ∨ c = '<' ∨ c = '=' → P ⟨TokenType.COMPARISON, [c]⟩) :
    ∀ (cs : List Char) (skip : Nat) (tokens result : List Token), (∀ x, x ∈ cs → Q x) →
      (∀ t, t ∈ tokens → P t) → tokenizeFrom U cs skip tokens = Except.ok result →
      ∀ t, t ∈ result → P t := by
  intro cs
  induction cs with
  | nil =>
    intro skip tokens result _ hacc h
    rw [tokenizeFrom_nil] at h
    cases h
    exact hacc
  | cons c cs ih =>
    intro skip tokens result hQ hacc h
    have hQ1 : ∀ x, x ∈ cs → Q x := fun x hx => hQ x (List.mem_cons_of_mem c hx)
    have hext : ∀ tok, P tok → ∀ t, t ∈ tokens ++ [tok] → P t := by
      intro tok htok t ht
      rcases List.mem_append.mp ht with h1 | h1
      · exact hacc t h1
      · rw [List.mem_singleton.mp h1]; exact htok
    cases skip with
    | succ k => exact ih k tokens result hQ1 hacc h
    | zero =>
      rw [tokenizeFrom_zero] at h
      split_ifs at h with h1 h2 h3 h4 h5 h6 h7 h8
      · exact ih _ _ _ hQ1 hacc h
      · exact ih _ _ _ hQ1 (hext _ hl) h
      · exact ih _ _ _ hQ1 (hext _ hr) h
      · exact ih _ _ _ hQ1 (hext _ (hv _)) h
      · refine ih _ _ _ hQ1 (hext _ (hw _ ?_)) h
        intro x hx
        exact hQ x ((List.takeWhile_sublist _).subset hx)
      · exact ih _ _ _ hQ1 (hext _ (hv _)) h
      · refine ih _ _ _ hQ1 (hext _ (hc c ?_)) h
        simpa [or_assoc] using h8

theorem wordToken_Lexed (w : Str) : (wordToken U w).Lexed := by
  unfold wordToken
  by_cases h1 : ToUpper U w = "AND".toList
  · rw [if_pos h1]
    refine ⟨?_, ?_, ?_⟩ <;> intro h <;> first | rfl | cases h
  · rw [if_neg h1]
    by_cases h2 : ToUpper U w = "OR".toList
    · rw [if_pos h2]
      refine ⟨?_, ?_, ?_⟩ <;> intro h <;> first | rfl | cases h
    · rw [if_neg h2]
      refine ⟨?_, ?_, ?_⟩ <;> intro h <;> cases h

theorem wordToken_LowerField (w : Str) (ha : IsASCII w) : (wordToken U w).LowerField U := by
  unfold wordToken
  by_cases h1 : ToUpper U w = "AND".toList
  · rw [if_pos h1]
    intro h; cases h
  · rw [if_neg h1]
    by_cases h2 : ToUpper U w = "OR".toList
    · rw [if_pos h2]
      intro h; cases h
    · rw [if_neg h2]
      intro _
      refine ⟨ToLower_ToLower w ha, ?_, ?_⟩
      · intro h
        apply h1
        have h' : ToLower U w = "and".toList := h
        rw [← ToUpper_ToLower w ha, h']
        rfl
      · intro h
        apply h2
        have h' : ToLower U w = "or".toList := h
        rw [← ToUpper_ToLower w ha, h']
        rfl

/-- Every token of `Tokenize`, whatever the text, is as the tokenizer builds it. -/
theorem Tokenize_Lexed (input : Str) (tokens : List Token)
    (h : Tokenize U input = Except.ok tokens) : ∀ t, t ∈ tokens → t.Lexed := by
  refine tokenizeFrom_forall Token.Lexed (fun _ => True) ?_ ?_ ?_
    (fun w _ => wordToken_Lexed (TrimSpace U w)) ?_
    (TrimSpace U input) 0 [] tokens (fun _ _ => trivial) (by simp) h
  · refine ⟨?_, ?_, ?_⟩ <;> intro h <;> cases h
  · refine ⟨?_, ?_, ?_⟩ <;> intro h <;> cases h
  · intro s
    refine ⟨?_, ?_, ?_⟩ <;> intro h <;> cases h
  · intro c hc
    refine ⟨?_, ?_, ?_⟩
    · intro _
      rcases hc with h | h | h <;> subst h <;> simp
    · intro h; cases h
    · intro h; cases h

/-- Every field token of an ASCII text is in lower case, and is neither `and`
nor `or`. -/
theorem Tokenize_LowerField (input : Str) (tokens : List Token) (ha : IsASCII input)
    (h : Tokenize U input = Except.ok tokens) : ∀ t, t ∈ tokens → t.LowerField U := by
  refine tokenizeFrom_forall (Token.LowerField U) (fun c => c.toNat < 128) ?_ ?_ ?_
    (fun w hw => wordToken_LowerField (TrimSpace U w) (IsASCII_TrimSpace hw)) ?_
    (TrimSpace U input) 0 [] tokens (IsASCII_TrimSpace ha) (by simp) h
  · intro h; cases h
  · intro h; cases h
  · intro s h; cases h
  · intro c _ h; cases h

theorem takeWhile_all (p : Char → Bool) (cs : List Char) (h : ∀ x, x ∈ cs → p x = true) :
    cs.takeWhile p = cs ∧ cs.dropWhile p = [] := by
  induction cs with
  | nil => exact ⟨rfl, rfl⟩
  | cons x xs ih =>
    have hx := h x (List.mem_cons_self x xs)
    obtain ⟨h1, h2⟩ := ih (fun y hy => h y (List.mem_cons_of_mem x hy))
    exact ⟨by rw [List.takeWhile_cons, hx]; simp [h1], by rw [List.dropWhile_cons, hx]; simp [h2]⟩

theorem IsWord_no_space {w : Str} (h : IsWord w) : ∀ c, c ∈ w → isSpace c = false := by
  obtain ⟨c, cs, rfl, hc, hcs, -⟩ := h
  intro x hx
  rcases List.mem_cons.mp hx with h1 | h1
  · rw [h1]; exact isLetter_not_space hc
  · have := hcs x h1
    rcases Bool.or_eq_true _ _ |>.mp this with h2 | h2
    · exact isLetter_not_space h2
    · exact isDigit_not_space h2

/-- A word alone is read as one token. -/
theorem Tokenize_word {w : Str} (h : IsWord w) : Tokenize U w = Except.ok [wordToken U w] := by
  have hns := IsWord_no_space h
  obtain ⟨c, cs, rfl, hc, hcs, ha⟩ := h
  have htrim : TrimSpace U (c :: cs) = c :: cs := TrimSpace_of_no_space (c :: cs) ha hns
  obtain ⟨ht, hd⟩ := takeWhile_all (fun x => isLetter x || isDigit x) cs hcs
  unfold Tokenize
  rw [htrim, tokenizeFrom_word cs [] hc, ht, hd, htrim, tokenizeFrom_nil]
  rfl

theorem IsNumeralRun_no_space {v : Str} (h : IsNumeralRun v) :
    ∀ c, c ∈ v → isSpace c = false := by
  obtain ⟨c, cs, rfl, hc, hcs⟩ := h
  intro x hx
  rcases List.mem_cons.mp hx with h1 | h1
  · rw [h1]; exact isDigit_not_space hc
  · have := hcs x h1
    rcases Bool.or_eq_true _ _ |>.mp this with h2 | h2
    · exact isDigit_not_space h2
    · have : x = '.' := by simpa using h2
      subst this
      decide

theorem IsNumeralRun_ascii {v : Str} (h : IsNumeralRun v) : IsASCII v := by
  obtain ⟨c, cs, rfl, hc, hcs⟩ := h
  intro x hx
  rcases List.mem_cons.mp hx with h1 | h1
  · rw [h1]; rw [isDigit_iff] at hc; omega
  · have := hcs x h1
    rcases Bool.or_eq_true _ _ |>.mp this with h2 | h2
    · rw [isDigit_iff] at h2; omega
    · have : x = '.' := by simpa using h2
      subst this
      decide

theorem IsNumeralRun_lower {v : Str} (h : IsNumeralRun v) : ToLower U v = v := by
  have ha := IsNumeralRun_ascii h
  obtain ⟨c, cs, rfl, hc, hcs⟩ := h
  have hall : ∀ x, x ∈ c :: cs → x.toLower = x := by
    intro x hx
    apply toLower_of_not_upper
    rcases List.mem_cons.mp hx with h1 | h1
    · rw [h1]; rw [isDigit_iff] at hc; omega
    · have := hcs x h1
      rcases Bool.or_eq_true _ _ |>.mp this with h2 | h2
      · rw [isDigit_iff] at h2; omega
      · have : x = '.' := by simpa using h2
        subst this
        decide
  rw [ToLower_ascii ha]
  conv_rhs => rw [← List.map_id (c :: cs)]
  exact List.map_congr_left hall

/-- The tokens of `a = v` for a numeral `v`. -/
theorem Tokenize_a_eq_numeral {v : Str} (h : IsNumeralRun v) :
    Tokenize U ("a = ".toList ++ v) =
      Except.ok [⟨TokenType.FIELD, "a".toList⟩, ⟨TokenType.COMPARISON, "=".toList⟩,
        ⟨TokenType.VALUE, v⟩] := by
  have hns := IsNumeralRun_no_space h
  have ha := IsNumeralRun_ascii h
  obtain ⟨c, cs, rfl, hc, hcs⟩ := h
  have htrimv : TrimSpace U (c :: cs) = c :: cs := TrimSpace_of_no_space (c :: cs) ha hns
  have htrim : TrimSpace U ("a = ".toList ++ c :: cs) = "a = ".toList ++ c :: cs := by
    apply TrimSpace_eq_self _ (IsASCII_append.mpr ⟨by unfold IsASCII; decide, ha⟩)
    · intro x hx
      have : x = 'a' := by simpa using hx.symm
      subst this
      decide
    · intro x hx
      apply hns
      have : ("a = ".toList ++ c :: cs).getLast? = (c :: cs).getLast? := by
        rw [List.getLast?_append_of_ne_nil _ (by simp)]
      rw [this] at hx
      exact List.mem_of_mem_getLast? hx
  obtain ⟨ht, hd⟩ := takeWhile_all (fun x => isDigit x || x = '.') cs hcs
  unfold Tokenize
  rw [htrim]
  have hstep : tokenizeFrom U ("a = ".toList ++ c :: cs) 0 [] =
      tokenizeFrom U (c :: cs) 0
        [⟨TokenType.FIELD, "a".toList⟩, ⟨TokenType.COMPARISON, "=".toList⟩] := rfl
  rw [hstep, tokenizeFrom_number cs _ hc, ht, hd, htrimv, tokenizeFrom_nil]
  rfl

/-- Whatever `parseExpression` consumes is a phrase of the grammar, and the
node returned is the tree of that phrase. -/
theorem parseExpression_sound_tree (n : Nat) : ∀ (ts : List Token), ts.length ≤ n →
    ∀ node rest, parseExpression ts = Except.ok (node, rest) →
      ∃ p, DerivesTo p node ∧ ts = p ++ rest := by
  induction n with
  | zero =>
    intro ts hlen node rest h
    cases ts with
    | nil => simp [parseExpression_nil] at h
    | cons t ts => simp at hlen
  | succ n ih =>
    intro ts hlen node rest h
    cases ts with
    | nil => simp [parseExpression_nil] at h
    | cons t ts =>
      simp only [List.length_cons, Nat.add_le_add_iff_right] at hlen
      by_cases hl : t.Typ = TokenType.LPAREN
      · rw [parseExpression_paren ts hl] at h
        cases hp : parseExpression ts with
        | error err => simp [hp] at h
        | ok res =>
          obtain ⟨expr, rest1⟩ := res
          obtain ⟨p, hpd, hts⟩ := ih ts hlen expr rest1 hp
          simp only [hp] at h
          cases rest1 with
          | nil => simp at h
          | cons r rest2 =>
            by_cases hr : r.Typ = TokenType.RPAREN
            · simp only [hr, if_true, Except.ok.injEq, Prod.mk.injEq] at h
              refine ⟨t :: (p ++ [r]), ?_, ?_⟩
              · rw [← h.1]; exact DerivesTo.paren hl hr hpd
              · rw [hts, ← h.2]; simp
            · simp [hr] at h
      · by_cases hf : t.Typ = TokenType.FIELD
        · cases ts with
          | nil => rw [parseExpression_cons] at h; simp [hl, hf] at h
          | cons c ts1 =>
            by_cases hc : c.Typ = TokenType.COMPARISON
            · cases ts1 with
              | nil => rw [parseExpression_cons] at h; simp [hl, hf, hc] at h
              | cons v ts2 =>
                by_cases hv : v.Typ = TokenType.VALUE
                · cases ts2 with
                  | nil =>
                    rw [parseExpression_operand_end hf hc hv] at h
                    simp only [Except.ok.injEq, Prod.mk.injEq] at h
                    refine ⟨[t, c, v], ?_, by rw [← h.2]; simp⟩
                    rw [← h.1]; exact DerivesTo.operand hf hc hv
                  | cons o ts3 =>
                    by_cases ho : o.Typ = TokenType.AND ∨ o.Typ = TokenType.OR
                    · rw [parseExpression_operand_conn ts3 hf hc hv ho] at h
                      cases hp : parseExpression ts3 with
                      | error err => simp [hp] at h
                      | ok res =>
                        obtain ⟨right, rest4⟩ := res
                        have hlen3 : ts3.length ≤ n := by
                          simp only [List.length_cons] at hlen; omega
                        obtain ⟨p, hpd, hts⟩ := ih ts3 hlen3 right rest4 hp
                        simp only [hp, Except.ok.injEq, Prod.mk.injEq] at h
                        refine ⟨t :: c :: v :: o :: p, ?_, ?_⟩
                        · rw [← h.1]; exact DerivesTo.chain hf hc hv ho hpd
                        · rw [hts, ← h.2]; simp
                    · rw [parseExpression_operand_stop ts3 hf hc hv ho] at h
                      simp only [Except.ok.injEq, Prod.mk.injEq] at h
                      refine ⟨[t, c, v], ?_, by rw [← h.2]; simp⟩
                      rw [← h.1]; exact DerivesTo.operand hf hc hv
                · rw [parseExpression_cons] at h; simp [hl, hf, hc, hv] at h
            · rw [parseExpression_cons] at h; simp [hl, hf, hc] at h
        · rw [parseExpression_cons] at h; simp [hl, hf] at h

/-- A phrase of the grammar is consumed whole by `parseExpression` when no
connective follows it, and the node returned is its tree. -/
theorem parseExpression_complete_tree {p : List Token} {T : Node} (hp : DerivesTo p T) :
    ∀ rest : List Token,
      (∀ o rest1, rest = o :: rest1 → ¬ (o.Typ = TokenType.AND ∨ o.Typ = TokenType.OR)) →
      parseExpression (p ++ rest) = Except.ok (T, rest) := by
  induction hp with
  | @paren l r e T hl hr _ ih =>
    intro rest _
    have hr1 : ∀ o rest1, r :: rest = o :: rest1 →
        ¬ (o.Typ = TokenType.AND ∨ o.Typ = TokenType.OR) := by
      intro o rest1 h
      simp only [List.cons.injEq] at h
      rw [← h.1, hr]; simp
    have hn := ih (r :: rest) hr1
    have : l :: (e ++ [r]) ++ rest = l :: (e ++ r :: rest) := by simp
    rw [this, parseExpression_paren _ hl, hn]
    simp [hr]
  | @operand f c v hf hc hv =>
    intro rest hrest
    cases rest with
    | nil => exact parseExpression_operand_end hf hc hv
    | cons o rest1 => exact parseExpression_operand_stop rest1 hf hc hv (hrest o rest1 rfl)
  | @chain f c v o e T hf hc hv ho _ ih =>
    intro rest hrest
    have hn := ih rest hrest
    have : f :: c :: v :: o :: e ++ rest = f :: c :: v :: o :: (e ++ rest) := by simp
    rw [this, parseExpression_operand_conn _ hf hc hv ho, hn]
    rfl

/-- The method `Parse` returns exactly the trees of the phrases of the grammar. -/
theorem Parse_ok_iff_DerivesTo (ts : List Token) (T : Node) :
    Parse ts = Except.ok T ↔ DerivesTo ts T := by
  constructor
  · intro h
    unfold Parse at h
    cases hp : parseExpression ts with
    | error err => simp [hp] at h
    | ok res =>
      obtain ⟨node, rest⟩ := res
      simp only [hp] at h
      cases rest with
      | nil =>
        obtain ⟨p, hpd, hts⟩ := parseExpression_sound_tree ts.length ts (Nat.le_refl _) node [] hp
        simp only [List.append_nil] at hts
        simp only [List.isEmpty_nil, if_true, Except.ok.injEq] at h
        rw [hts, ← h]
        exact hpd
      | cons r rest1 => simp at h
  · intro hd
    have hn := parseExpression_complete_tree hd [] (by intro o rest1 h; simp at h)
    simp only [List.append_nil] at hn
    unfold Parse
    rw [hn]
    rfl

theorem DerivesTo_Derives {p : List Token} {T : Node} (h : DerivesTo p T) : Derives p := by
  induction h with
  | paren hl hr _ ih => exact Derives.paren hl hr ih
  | operand hf hc hv => exact Derives.operand hf hc hv
  | chain hf hc hv ho _ ih => exact Derives.chain hf hc hv ho ih

/-- Every phrase of the grammar stands for a tree. -/
theorem Derives_DerivesTo {p : List Token} (h : Derives p) : ∃ T, DerivesTo p T := by
  induction h with
  | paren hl hr _ ih =>
    obtain ⟨T, hT⟩ := ih
    exact ⟨T, DerivesTo.paren hl hr hT⟩
  | operand hf hc hv => exact ⟨_, DerivesTo.operand hf hc hv⟩
  | chain hf hc hv ho _ ih =>
    obtain ⟨T, hT⟩ := ih
    exact ⟨_, DerivesTo.chain hf hc hv ho hT⟩

/-- The tree of a phrase of the grammar is a node, not `nil`. -/
theorem DerivesTo_ne_nil {p : List Token} {T : Node} (h : DerivesTo p T) : T ≠ Node.nil := by
  induction h with
  | paren _ _ _ ih => exact ih
  | operand _ _ _ => intro h; cases h
  | chain _ _ _ _ _ _ => intro h; cases h

/-- In a phrase of the grammar no comparison is followed by a comparison. -/
theorem Derives_no_adjacent_comparisons {p : List Token} (hp : Derives p) :
    ∀ (pre post : List Token) (a b : Token), p = pre ++ a :: b :: post →
      a.Typ = TokenType.COMPARISON → b.Typ ≠ TokenType.COMPARISON := by
  induction hp with
  | @paren l r' e hl hr' _ ih =>
    intro pre post a b heq ha hb
    cases pre with
    | nil =>
      simp only [List.nil_append, List.cons.injEq] at heq
      rw [← heq.1, hl] at ha
      cases ha
    | cons x pre1 =>
      simp only [List.cons_append, List.cons.injEq] at heq
      obtain ⟨-, heq⟩ := heq
      rcases List.eq_nil_or_concat post with hpost | ⟨post1, z, hpost⟩
      · subst hpost
        have h1 : e ++ [r'] = (pre1 ++ [a]) ++ [b] := by rw [heq]; simp
        have h2 := List.append_inj_right' h1 rfl
        simp only [List.cons.injEq, and_true] at h2
        rw [← h2, hr'] at hb
        cases hb
      · subst hpost
        have h1 : e ++ [r'] = (pre1 ++ a :: b :: post1) ++ [z] := by rw [heq]; simp
        have h2 := List.append_inj_left' h1 rfl
        exact ih pre1 post1 a b h2 ha hb
  | @operand f c v hf hc hv =>
    intro pre post a b heq ha hb
    cases pre with
    | nil =>
      simp only [List.nil_append, List.cons.injEq] at heq
      rw [← heq.1, hf] at ha; cases ha
    | cons x pre1 =>
      cases pre1 with
      | nil =>
        simp only [List.cons_append, List.nil_append, List.cons.injEq] at heq
        rw [← heq.2.2.1, hv] at hb; cases hb
      | cons y pre2 =>
        cases pre2 with
        | nil => simp at heq
        | cons z pre3 => simp at heq
  | @chain f c v o' e hf hc hv ho' _ ih =>
    intro pre post a b heq ha hb
    cases pre with
    | nil =>
      simp only [List.nil_append, List.cons.injEq] at heq
      rw [← heq.1, hf] at ha; cases ha
    | cons x pre1 =>
      cases pre1 with
      | nil =>
        simp only [List.cons_append, List.nil_append, List.cons.injEq] at heq
        rw [← heq.2.2.1, hv] at hb; cases hb
      | cons y pre2 =>
        cases pre2 with
        | nil =>
          simp only [List.cons_append, List.nil_append, List.cons.injEq] at heq
          rw [← heq.2.2.1, hv] at ha; cases ha
        | cons z pre3 =>
          cases pre3 with
          | nil =>
            simp only [List.cons_append, List.nil_append, List.cons.injEq] at heq
            rw [← heq.2.2.2.1] at ha
            rcases ho' with h | h <;> rw [h] at ha <;> cases ha
          | cons w pre4 =>
            simp only [List.cons_append, List.cons.injEq] at heq
            exact ih pre4 post a b heq.2.2.2.2 ha hb

theorem parseValue_kind (s : Str) :
    (∃ i, parseValue s = Value.int i) ∨ (∃ f, parseValue s = Value.float f) ∨
      (∃ t, parseValue s = Value.str t) := by
  unfold parseValue
  cases Atoi s with
  | some i => exact Or.inl ⟨i, rfl⟩
  | none =>
    cases ParseFloat s with
    | some f => exact Or.inr (Or.inl ⟨f, rfl⟩)
    | none => exact Or.inr (Or.inr ⟨s, rfl⟩)

/-- The tree of a phrase whose tokens come from the tokenizer is well formed. -/
theorem DerivesTo_WellFormed {p : List Token} {T : Node} (hp : DerivesTo p T) :
    (∀ t, t ∈ p → t.Lexed) → WellFormed T := by
  induction hp with
  | @paren l r e T hl hr _ ih =>
    intro hlex
    exact ih (fun t ht => hlex t (List.mem_cons_of_mem l (List.mem_append_left [r] ht)))
  | @operand f c v hf hc hv =>
    intro hlex
    exact WellFormed.operand c.Value f.Value (parseValue v.Value)
      ((hlex c (by simp)).1 hc) (parseValue_kind v.Value)
  | @chain f c v o e T hf hc hv ho _ ih =>
    intro hlex
    have hT : WellFormed T := ih (fun t ht => hlex t (by simp [ht]))
    have hop : WellFormed (operandNode f.Value c.Value v.Value) :=
      WellFormed.operand c.Value f.Value (parseValue v.Value)
        ((hlex c (by simp)).1 hc) (parseValue_kind v.Value)
    have hconn : o.Value = "AND".toList ∨ o.Value = "OR".toList := by
      rcases ho with h | h
      · exact Or.inl ((hlex o (by simp)).2.1 h)
      · exact Or.inr ((hlex o (by simp)).2.2 h)
    exact WellFormed.operator o.Value [] Value.nil _ _ hconn hop hT

/-- Taking the parentheses out of a phrase leaves a phrase with the same tree. -/
theorem DerivesTo_stripParens {p : List Token} {T : Node} (hp : DerivesTo p T) :
    DerivesTo (stripParens p) T := by
  induction hp with
  | @paren l r e T hl hr _ ih =>
    have : stripParens (l :: (e ++ [r])) = stripParens e := by
      simp [stripParens, List.filter_cons, hl, hr]
    rw [this]
    exact ih
  | @operand f c v hf hc hv =>
    have : stripParens [f, c, v] = [f, c, v] := by
      simp [stripParens, List.filter_cons, hf, hc, hv]
    rw [this]
    exact DerivesTo.operand hf hc hv
  | @chain f c v o e T hf hc hv ho _ ih =>
    have : stripParens (f :: c :: v :: o :: e) = f :: c :: v :: o :: stripParens e := by
      rcases ho with h | h <;> simp [stripParens, List.filter_cons, hf, hc, hv, h]
    rw [this]
    exact DerivesTo.chain hf hc hv ho ih

/-! ## The errors of the tokenizer -/

theorem lexError_nil (m : LexMode) : lexError m [] = decide (m = LexMode.quote) := by
  cases m <;> rfl

theorem lexError_cons (m : LexMode) (c : Char) (cs : List Char) :
    lexError m (c :: cs) =
      match lexStep m c with
      | none => true
      | some m1 => lexError m1 cs := by
  cases m <;> rfl

theorem outStep_space {c : Char} (h : isSpace c = true) : outStep c = some LexMode.out := by
  unfold outStep
  rw [if_pos h]

theorem lexStep_space {m : LexMode} {c : Char} (h : isSpace c = true) :
    lexStep m c = some (if m = LexMode.quote then LexMode.quote else LexMode.out) := by
  have hl : isLetter c = false := by
    rw [Bool.eq_false_iff]; intro hl
    rw [isLetter_not_space hl] at h; cases h
  have hd : isDigit c = false := by
    rw [Bool.eq_false_iff]; intro hd
    rw [isDigit_not_space hd] at h; cases h
  have hq : c ≠ '\'' := by intro he; subst he; revert h; decide
  have hp : c ≠ '.' := by intro he; subst he; revert h; decide
  cases m
  · simp [lexStep, outStep_space h]
  · simp [lexStep, hl, hd, outStep_space h]
  · simp [lexStep, hd, hp, outStep_space h]
  · simp [lexStep, hq]

/-- White space at the end does not change the outcome of the scan. -/
theorem lexError_spaces (sp : List Char) (hsp : ∀ c, c ∈ sp → isSpace c = true) :
    ∀ m, lexError m sp = decide (m = LexMode.quote) := by
  induction sp with
  | nil => exact lexError_nil
  | cons c cs ih =>
    intro m
    rw [lexError_cons, lexStep_space (hsp c (List.mem_cons_self c cs))]
    simp only
    rw [ih (fun x hx => hsp x (List.mem_cons_of_mem c hx))]
    cases m <;> simp

theorem lexError_append_spaces (r sp : List Char) (hsp : ∀ c, c ∈ sp → isSpace c = true) :
    ∀ m, lexError m (r ++ sp) = lexError m r := by
  induction r with
  | nil =>
    intro m
    rw [List.nil_append, lexError_spaces sp hsp, lexError_nil]
  | cons c cs ih =>
    intro m
    rw [List.cons_append, lexError_cons, lexError_cons]
    cases lexStep m c with
    | none => rfl
    | some m1 => exact ih m1

theorem lexError_spaces_append (sp r : List Char) (hsp : ∀ c, c ∈ sp → isSpace c = true) :
    lexError LexMode.out (sp ++ r) = lexError LexMode.out r := by
  induction sp with
  | nil => rfl
  | cons c cs ih =>
    rw [List.cons_append, lexError_cons]
    have h := hsp c (List.mem_cons_self c cs)
    have : lexStep LexMode.out c = some LexMode.out := outStep_space h
    rw [this]
    exact ih (fun x hx => hsp x (List.mem_cons_of_mem c hx))

/-- An ASCII text is its trimming between two runs of white space. -/
theorem TrimSpace_decompose (t : Str) (ha : IsASCII t) :
    ∃ sp1 sp2 : List Char, (∀ c, c ∈ sp1 → isSpace c = true) ∧
      (∀ c, c ∈ sp2 → isSpace c = true) ∧ t = sp1 ++ (TrimSpace U t ++ sp2) := by
  refine ⟨t.takeWhile isSpace, ((t.dropWhile isSpace).reverse.takeWhile isSpace).reverse,
    ?_, ?_, ?_⟩
  · intro c hc
    exact (List.mem_takeWhile_imp hc)
  · intro c hc
    rw [List.mem_reverse] at hc
    exact (List.mem_takeWhile_imp hc)
  · rw [TrimSpace_ascii ha]
    rw [← List.reverse_append, List.takeWhile_append_dropWhile, List.reverse_reverse,
      List.takeWhile_append_dropWhile]

/-- Trimming an ASCII text does not change the outcome of the scan. -/
theorem lexError_TrimSpace (t : Str) (ha : IsASCII t) :
    lexError LexMode.out (TrimSpace U t) = lexError LexMode.out t := by
  obtain ⟨sp1, sp2, h1, h2, ht⟩ := @TrimSpace_decompose U t ha
  conv_rhs => rw [ht]
  rw [lexError_spaces_append sp1 _ h1, lexError_append_spaces _ sp2 h2]

theorem lexError_quote_open (cs : List Char) (h : '\'' ∉ cs) :
    lexError LexMode.quote cs = true := by
  induction cs with
  | nil => rfl
  | cons x xs ih =>
    have hx : x ≠ '\'' := fun he => h (by simp [he])
    rw [lexError_cons]
    simp only [lexStep, if_neg hx]
    exact ih (fun he => h (List.mem_cons_of_mem x he))

theorem lexError_quote_closed (lit rest : List Char) (h : '\'' ∉ lit) :
    lexError LexMode.quote (lit ++ '\'' :: rest) = lexError LexMode.out rest := by
  induction lit with
  | nil =>
    rw [List.nil_append, lexError_cons]
    simp [lexStep]
  | cons x xs ih =>
    have hx : x ≠ '\'' := fun he => h (by simp [he])
    rw [List.cons_append, lexError_cons]
    simp only [lexStep, if_neg hx]
    exact ih (fun he => h (List.mem_cons_of_mem x he))

theorem split_at_quote (cs : List Char) :
    '\'' ∉ cs ∨ ∃ lit rest, cs = lit ++ '\'' :: rest ∧ '\'' ∉ lit := by
  induction cs with
  | nil => exact Or.inl (by simp)
  | cons x xs ih =>
    by_cases hx : x = '\''
    · exact Or.inr ⟨[], xs, by simp [hx], by simp⟩
    · rcases ih with h | ⟨lit, rest, h1, h2⟩
      · refine Or.inl ?_
        intro hm
        rcases List.mem_cons.mp hm with h3 | h3
        · exact hx h3.symm
        · exact h h3
      · refine Or.inr ⟨x :: lit, rest, by rw [h1]; rfl, ?_⟩
        intro hm
        rcases List.mem_cons.mp hm with h3 | h3
        · exact hx h3.symm
        · exact h2 h3

theorem lexError_word (cs : List Char) :
    lexError LexMode.word cs =
      lexError LexMode.out (cs.dropWhile (fun x => isLetter x || isDigit x)) := by
  induction cs with
  | nil => rfl
  | cons c cs ih =>
    by_cases h : (isLetter c || isDigit c) = true
    · rw [lexError_cons, List.dropWhile_cons]
      simp only [lexStep, h, if_true]
      exact ih
    · have hd : (c :: cs).dropWhile (fun x => isLetter x || isDigit x) = c :: cs := by
        rw [List.dropWhile_cons]; simp [h]
      have hs : lexStep LexMode.word c = lexStep LexMode.out c := by
        simp only [lexStep, h, if_false]; simp
      rw [hd, lexError_cons, lexError_cons, hs]

theorem lexError_num (cs : List Char) :
    lexError LexMode.num cs =
      lexError LexMode.out (cs.dropWhile (fun x => isDigit x || x = '.')) := by
  induction cs with
  | nil => rfl
  | cons c cs ih =>
    by_cases h : (isDigit c || decide (c = '.')) = true
    · rw [lexError_cons, List.dropWhile_cons]
      simp only [lexStep, h, if_true]
      exact ih
    · have hd : (c :: cs).dropWhile (fun x => isDigit x || x = '.') = c :: cs := by
        rw [List.dropWhile_cons]; simp only [h]; simp
      have hs : lexStep LexMode.num c = lexStep LexMode.out c := by
        simp only [lexStep, h, if_false]; simp
      rw [hd, lexError_cons, lexError_cons, hs]

/-- The loop of `Tokenize` fails exactly on the texts that the scan finds in
error, whatever the tokens read before. -/
theorem tokenizeFrom_error_iff (n : Nat) : ∀ (cs : List Char), cs.length ≤ n →
    ∀ tokens : List Token,
      (∃ err, tokenizeFrom U cs 0 tokens = Except.error err) ↔
        lexError LexMode.out cs = true := by
  induction n with
  | zero =>
    intro cs hlen tokens
    cases cs with
    | nil => simp [tokenizeFrom_nil, lexError_nil]
    | cons c rest => simp at hlen
  | succ n ih =>
    intro cs hlen tokens
    cases cs with
    | nil => simp [tokenizeFrom_nil, lexError_nil]
    | cons c rest =>
      simp only [List.length_cons, Nat.add_le_add_iff_right] at hlen
      have hout : lexError LexMode.out (c :: rest) =
          match outStep c with
          | none => true
          | some m1 => lexError m1 rest := lexError_cons LexMode.out c rest
      by_cases h1 : isSpace c = true
      · rw [tokenizeFrom_space rest tokens h1, hout, outStep_space h1]
        exact ih rest hlen _
      by_cases h2 : c = '('
      · rw [tokenizeFrom_zero, if_neg h1, if_pos h2, hout, outStep, if_neg h1, if_pos h2]
        exact ih rest hlen _
      by_cases h3 : c = ')'
      · rw [tokenizeFrom_zero, if_neg h1, if_neg h2, if_pos h3, hout, outStep, if_neg h1,
          if_neg h2, if_pos h3]
        exact ih rest hlen _
      by_cases h4 : c = '\''
      · rw [hout, outStep, if_neg h1, if_neg h2, if_neg h3, if_pos h4]
        subst h4
        rcases split_at_quote rest with hno | ⟨lit, rest2, hrest, hlit⟩
        · rw [tokenizeFrom_quote_open rest tokens hno]
          simp only [lexError_quote_open rest hno, iff_true]
          exact ⟨_, rfl⟩
        · subst hrest
          rw [tokenizeFrom_quote lit rest2 tokens hlit]
          simp only [lexError_quote_closed lit rest2 hlit]
          have hlen2 : rest2.length ≤ n := by
            simp only [List.length_append, List.length_cons] at hlen
            omega
          exact ih rest2 hlen2 _
      by_cases h5 : isLetter c = true
      · rw [tokenizeFrom_word rest tokens h5, hout, outStep, if_neg h1, if_neg h2, if_neg h3,
          if_neg h4, if_pos h5]
        simp only [lexError_word]
        exact ih _ (Nat.le_trans (List.dropWhile_sublist _).length_le hlen) _
      by_cases h6 : isDigit c = true
      · rw [tokenizeFrom_number rest tokens h6, hout, outStep, if_neg h1, if_neg h2, if_neg h3,
          if_neg h4, if_neg h5, if_pos h6]
        simp only [lexError_num]
        exact ih _ (Nat.le_trans (List.dropWhile_sublist _).length_le hlen) _
      by_cases h7 : (c = '>' || c = '<' || c = '=') = true
      · rw [tokenizeFrom_zero, if_neg h1, if_neg h2, if_neg h3, if_neg h4, if_neg h5, if_neg h6,
          if_pos h7, hout, outStep, if_neg h1, if_neg h2, if_neg h3, if_neg h4, if_neg h5,
          if_neg h6, if_pos h7]
        exact ih rest hlen _
      · rw [tokenizeFrom_zero, if_neg h1, if_neg h2, if_neg h3, if_neg h4, if_neg h5, if_neg h6,
          if_neg h7, hout, outStep, if_neg h1, if_neg h2, if_neg h3, if_neg h4, if_neg h5,
          if_neg h6, if_neg h7]
        simp

/-- An error of the scan that the specification describes is an error of the
scan that tells words, numerals and literals apart. -/
theorem specLexError_lexError (cs : List Char) :
    (specLexError true cs = true → lexError LexMode.quote cs = true) ∧
    (specLexError false cs = true →
      ∀ m, m ≠ LexMode.quote → lexError m cs = true) := by
  induction cs with
  | nil =>
    refine ⟨fun _ => rfl, ?_⟩
    intro h
    simp [specLexError] at h
  | cons c cs ih =>
    obtain ⟨ih1, ih2⟩ := ih
    constructor
    · intro h
      rw [lexError_cons]
      by_cases hq : c = '\''
      · simp only [specLexError, hq, if_true] at h
        simp only [lexStep, hq, if_true]
        exact ih2 h LexMode.out (by decide)
      · simp only [specLexError, hq, if_false] at h
        simp only [lexStep, hq, if_false]
        exact ih1 h
    · intro h m hm
      rw [lexError_cons]
      cases hstep : lexStep m c with
      | none => rfl
      | some m1 =>
        simp only
        by_cases hq : c = '\''
        · subst hq
          simp only [specLexError, if_true] at h
          have : m1 = LexMode.quote := by
            cases m
            · simpa [lexStep, outStep, isSpace] using hstep.symm
            · simpa [lexStep, outStep, isSpace, isLetter, isDigit] using hstep.symm
            · simpa [lexStep, outStep, isSpace, isLetter, isDigit] using hstep.symm
            · exact absurd rfl hm
          rw [this]
          exact ih1 h
        · have hm1 : m1 ≠ LexMode.quote := by
            intro he
            subst he
            cases m
            · simp only [lexStep, outStep] at hstep
              split_ifs at hstep <;> contradiction
            · simp only [lexStep, outStep] at hstep
              split_ifs at hstep <;> contradiction
            · simp only [lexStep, outStep] at hstep
              split_ifs at hstep <;> contradiction
            · exact hm rfl
          simp only [specLexError, hq, if_false] at h
          split_ifs at h with hallow
          · exact ih2 h m1 hm1
          · exfalso
            simp only [Bool.or_eq_true, decide_eq_true_eq, not_or] at hallow
            obtain ⟨⟨⟨⟨⟨⟨⟨⟨a1, a2⟩, a3⟩, a4⟩, a5⟩, a6⟩, a7⟩, a8⟩, a9⟩ := hallow
            cases m
            · simp [lexStep, outStep, a1, a2, a3, a4, a5, a6, a7, a8, a9, hq] at hstep
            · simp [lexStep, outStep, a1, a2, a3, a4, a5, a6, a7, a8, a9, hq] at hstep
            · simp [lexStep, outStep, a1, a2, a3, a4, a5, a6, a7, a8, a9, hq] at hstep
            · exact hm rfl

/-! ## The claims on the tokenizer and the stored rules -/

/-- C12. A word (a letter followed by letters and digits, all ASCII) is read
as one token: `AND` if its upper-case form is `AND`, `OR` if it is `OR`, and
otherwise `FIELD` with the word in lower case. So every `FIELD` token that
`Tokenize` produces is in lower case and is neither `and` nor `or`, and
`Age > 18` parses to the same tree as `age > 18`. -/
theorem Tokenize_word_classification (U : Unicode) :
    (∀ w : Str, IsWord w →
      (ToUpper U w = "AND".toList →
        Tokenize U w = Except.ok [⟨TokenType.AND, "AND".toList⟩]) ∧
      (ToUpper U w = "OR".toList →
        Tokenize U w = Except.ok [⟨TokenType.OR, "OR".toList⟩]) ∧
      (ToUpper U w ≠ "AND".toList → ToUpper U w ≠ "OR".toList →
        Tokenize U w = Except.ok [⟨TokenType.FIELD, ToLower U w⟩])) ∧
    (∀ (input : Str) (tokens : List Token) (t : Token), IsASCII input →
      Tokenize U input = Except.ok tokens → t ∈ tokens → t.Typ = TokenType.FIELD →
      ToLower U t.Value = t.Value ∧ t.Value ≠ "and".toList ∧ t.Value ≠ "or".toList) ∧
    ParseRule U "Age > 18".toList = ParseRule U "age > 18".toList ∧
    ParseRule U "age > 18".toList =
      Except.ok (Node.mk "operand".toList ">".toList [] "age".toList (Value.int 18)) := by
  refine ⟨?_, ?_, rfl, rfl⟩
  · intro w hw
    have h := @Tokenize_word U w hw
    refine ⟨?_, ?_, ?_⟩
    · intro h1
      rw [h, wordToken, if_pos h1]
    · intro h1
      have h0 : ToUpper U w ≠ "AND".toList := by rw [h1]; decide
      rw [h, wordToken, if_neg h0, if_pos h1]
    · intro h1 h2
      rw [h, wordToken, if_neg h1, if_neg h2]
  · intro input tokens t ha htok hmem hty
    exact Tokenize_LowerField input tokens ha htok t hmem hty

/-- C12 at the words `aNd`, `Or` and `Age2`. -/
theorem Tokenize_word_classification_witness :
    Tokenize Unicode.inert "aNd".toList = Except.ok [⟨TokenType.AND, "AND".toList⟩] ∧
    Tokenize Unicode.inert "Or".toList = Except.ok [⟨TokenType.OR, "OR".toList⟩] ∧
    Tokenize Unicode.inert "Age2".toList = Except.ok [⟨TokenType.FIELD, "age2".toList⟩] :=
  ⟨((Tokenize_word_classification Unicode.inert).1 "aNd".toList
      ⟨'a', "Nd".toList, rfl, by decide, by decide, by unfold IsASCII; decide⟩).1 (by decide),
   ((Tokenize_word_classification Unicode.inert).1 "Or".toList
      ⟨'O', "r".toList, rfl, by decide, by decide, by unfold IsASCII; decide⟩).2.1 (by decide),
   ((Tokenize_word_classification Unicode.inert).1 "Age2".toList
      ⟨'A', "ge2".toList, rfl, by decide, by decide, by unfold IsASCII; decide⟩).2.2
      (by decide) (by decide)⟩

/-- C13, as stated, fails on `a = .5`: every character is one the claim
allows and no literal is open, so the scan of the claim finds no error, but
`Tokenize` fails on the point, which no numeral precedes. -/
theorem Tokenize_rejects_point_outside_numeral :
    IsASCII "a = .5".toList ∧ specLexError false "a = .5".toList = false ∧
    Tokenize Unicode.inert "a = .5".toList = Except.error (Error.unexpectedCharacter '.') :=
  ⟨by unfold IsASCII; decide, rfl, rfl⟩

/-- C13, amended. For an ASCII text, `Tokenize` returns an error exactly when
the left to right scan finds one: a quote that opens a literal has no later
closing quote, or a character outside the literals is not white space, a
parenthesis, a quote, a letter, a digit, one of `>`, `<`, `=`, or a point that
continues a numeral (a run of digits and points begun by a digit that does not
continue a word). On every other text it returns tokens. Every error of the
scan as the claim words it is such an error. -/
theorem Tokenize_error_iff_scan (U : Unicode) (t : Str) (ht : IsASCII t) :
    ((∃ err, Tokenize U t = Except.error err) ↔ lexError LexMode.out t = true) ∧
    ((∃ tokens, Tokenize U t = Except.ok tokens) ↔ lexError LexMode.out t = false) ∧
    (specLexError false t = true → ∃ err, Tokenize U t = Except.error err) := by
  have hiff : (∃ err, Tokenize U t = Except.error err) ↔ lexError LexMode.out t = true := by
    unfold Tokenize
    rw [tokenizeFrom_error_iff (TrimSpace U t).length (TrimSpace U t) (Nat.le_refl _) [],
      lexError_TrimSpace t ht]
  refine ⟨hiff, ?_, ?_⟩
  · rw [← Bool.not_eq_true, ← hiff]
    cases h : Tokenize U t with
    | error err => simp
    | ok tokens => simp
  · intro h
    exact hiff.mpr ((specLexError_lexError t).2 h LexMode.out (by decide))

/-- C13 amended, at `a = 1.5`, where the point continues a numeral, and at
`a1.5`, where it follows a word. -/
theorem Tokenize_error_iff_scan_witness :
    (∃ tokens, Tokenize Unicode.inert "a = 1.5".toList = Except.ok tokens) ∧
    (∃ err, Tokenize Unicode.inert "a1.5".toList = Except.error err) :=
  ⟨(Tokenize_error_iff_scan Unicode.inert "a = 1.5".toList (by unfold IsASCII; decide)).2.1.mpr rfl,
   (Tokenize_error_iff_scan Unicode.inert "a1.5".toList (by unfold IsASCII; decide)).1.mpr rfl⟩

/-- C14, as stated, fails on `!=`: the tokenizer has no case for `!` and
returns no tokens at all. -/
theorem Tokenize_bang_equal_fails :
    ¬ ∃ (U : Unicode) (tokens : List Token),
      Tokenize U "!=".toList = Except.ok tokens ∧ tokens.length = 2 := by
  rintro ⟨U, tokens, h, _⟩
  have : Tokenize U "!=".toList = Except.error (Error.unexpectedCharacter '!') := rfl
  rw [this] at h
  cases h

/-- C14, amended. The inputs `>=` and `<=` are read as two `COMPARISON`
tokens, one for each character; on `!=` the tokenizer fails with
"unexpected character: !". -/
theorem Tokenize_two_character_operators (U : Unicode) :
    Tokenize U ">=".toList =
      Except.ok [⟨TokenType.COMPARISON, ">".toList⟩, ⟨TokenType.COMPARISON, "=".toList⟩] ∧
    Tokenize U "<=".toList =
      Except.ok [⟨TokenType.COMPARISON, "<".toList⟩, ⟨TokenType.COMPARISON, "=".toList⟩] ∧
    Tokenize U "!=".toList = Except.error (Error.unexpectedCharacter '!') :=
  ⟨rfl, rfl, rfl⟩

/-- C4. `Parse` returns a tree exactly for the token sequences that the grammar
`expression := '(' expression ')' | FIELD COMPARISON VALUE ((AND|OR) expression)?`
derives as a whole, and an error for all the others. The tree returned is a
node, never `nil`: it is the tree that the phrase stands for, with an operand
leaf for each `FIELD COMPARISON VALUE` and an operator node for each
connective. -/
theorem Parse_accepts_exactly_the_grammar (ts : List Token) :
    ((∃ ast, ast ≠ Node.nil ∧ Parse ts = Except.ok ast) ↔ Derives ts) ∧
    ((∃ err, Parse ts = Except.error err) ↔ ¬ Derives ts) ∧
    (∀ ast, Parse ts = Except.ok ast ↔ DerivesTo ts ast) ∧
    (∀ ast, Parse ts = Except.ok ast → ast ≠ Node.nil) := by
  have hne : ∀ ast, Parse ts = Except.ok ast → ast ≠ Node.nil :=
    fun ast h => DerivesTo_ne_nil ((Parse_ok_iff_DerivesTo ts ast).mp h)
  refine ⟨?_, ?_, Parse_ok_iff_DerivesTo ts, hne⟩
  · constructor
    · rintro ⟨ast, -, h⟩
      exact (Parse_ok_iff_Derives ts).mp ⟨ast, h⟩
    · intro hd
      obtain ⟨ast, h⟩ := (Parse_ok_iff_Derives ts).mpr hd
      exact ⟨ast, hne ast h, h⟩
  · rw [← Parse_ok_iff_Derives ts]
    cases h : Parse ts with
    | error err => simp
    | ok ast => simp

/-- C15. A token sequence with two consecutive `COMPARISON` tokens is rejected
by `Parse`; the rules `age >> 18` and `age >= 18` are rejected by `ParseRule`. -/
theorem Parse_rejects_adjacent_comparisons (U : Unicode) :
    (∀ (ts pre post : List Token) (a b : Token), ts = pre ++ a :: b :: post →
      a.Typ = TokenType.COMPARISON → b.Typ = TokenType.COMPARISON →
      ∃ err, Parse ts = Except.error err) ∧
    ParseRule U "age >> 18".toList = Except.error (Error.parsing Error.expectedValue) ∧
    ParseRule U "age >= 18".toList = Except.error (Error.parsing Error.expectedValue) := by
  refine ⟨?_, rfl, rfl⟩
  intro ts pre post a b hts ha hb
  cases h : Parse ts with
  | error err => exact ⟨err, rfl⟩
  | ok ast =>
    have hd : Derives ts := (Parse_ok_iff_Derives ts).mp ⟨ast, h⟩
    exact absurd hb (Derives_no_adjacent_comparisons hd pre post a b hts ha)

/-- C15 at the tokens of `age >> 18`. -/
theorem Parse_rejects_adjacent_comparisons_witness :
    Tokenize Unicode.inert "age >> 18".toList =
      Except.ok ([⟨TokenType.FIELD, "age".toList⟩] ++ ⟨TokenType.COMPARISON, ">".toList⟩ ::
        ⟨TokenType.COMPARISON, ">".toList⟩ :: [⟨TokenType.VALUE, "18".toList⟩]) ∧
    ∃ err, Parse ([⟨TokenType.FIELD, "age".toList⟩] ++ ⟨TokenType.COMPARISON, ">".toList⟩ ::
        ⟨TokenType.COMPARISON, ">".toList⟩ :: [⟨TokenType.VALUE, "18".toList⟩]) =
      Except.error err :=
  ⟨rfl, (Parse_rejects_adjacent_comparisons Unicode.inert).1 _ _ _ _ _ rfl rfl rfl⟩

/-- C16. Every tree that `ParseRule` returns is well formed: each operand has
no children, one of the operators `>`, `<`, `=` and an integer, float or
string value; each operator node is `AND` or `OR` with exactly two children,
themselves well formed. -/
theorem ParseRule_WellFormed (U : Unicode) (t : Str) (T : Node)
    (h : ParseRule U t = Except.ok T) : WellFormed T := by
  unfold ParseRule at h
  cases htok : Tokenize U t with
  | error err => simp [htok] at h
  | ok tokens =>
    simp only [htok] at h
    cases hp : Parse tokens with
    | error err => simp [hp] at h
    | ok ast =>
      simp only [hp, Except.ok.injEq] at h
      subst h
      exact DerivesTo_WellFormed ((Parse_ok_iff_DerivesTo tokens ast).mp hp)
        (Tokenize_Lexed t tokens htok)

/-- C16 at the rule `a > 1 AND (b < 2 OR c = 'x')`. -/
theorem ParseRule_WellFormed_witness :
    WellFormed (Node.mk "operator".toList "AND".toList
      [Node.mk "operand".toList ">".toList [] "a".toList (Value.int 1),
       Node.mk "operator".toList "OR".toList
        [Node.mk "operand".toList "<".toList [] "b".toList (Value.int 2),
         Node.mk "operand".toList "=".toList [] "c".toList (Value.str "x".toList)]
        [] Value.nil] [] Value.nil) :=
  ParseRule_WellFormed Unicode.inert "a > 1 AND (b < 2 OR c = 'x')".toList _ rfl

/-- C17. The function `combineRuleExpressions` gives the empty text for no
expression, the lower-cased expression for one, and for more the lower-cased
first expression, ` AND `, and the combination of the others: the lower-cased
expressions in their order, separated by ` AND `. -/
theorem combineRuleExpressions_joins_lowercased (U : Unicode) :
    combineRuleExpressions U [] = [] ∧
    (∀ e : Str, combineRuleExpressions U [e] = ToLower U e) ∧
    (∀ (e1 e2 : Str) (rest : List Str),
      combineRuleExpressions U (e1 :: e2 :: rest) =
        ToLower U e1 ++ " AND ".toList ++ combineRuleExpressions U (e2 :: rest)) ∧
    (∀ es : List Str,
      combineRuleExpressions U es = " AND ".toList.intercalate (es.map (ToLower U))) := by
  refine ⟨rfl, fun _ => rfl, fun _ _ _ => rfl, ?_⟩
  intro es
  unfold combineRuleExpressions
  generalize es.map (ToLower U) = xs
  induction xs with
  | nil => rfl
  | cons a rest ih =>
    cases rest with
    | nil => simp [Join, List.intercalate]
    | cons b rest2 =>
      rw [Join, ih]
      simp [List.intercalate, List.intersperse]

/-- C18, as stated, fails on `1.2.3`: the literal is a run of digits and
points that neither `strconv.Atoi` nor `strconv.ParseFloat` accepts, yet
`ParseRule` succeeds on `a = 1.2.3` and the evaluation on `{a: "1.2.3"}`
returns true, and on `{a: 5}` false, without an error. -/
theorem rule_malformed_numeral_does_not_fail :
    Atoi "1.2.3".toList = none ∧ ParseFloat "1.2.3".toList = none ∧
    ParseRule Unicode.inert "a = 1.2.3".toList =
      Except.ok (Node.mk "operand".toList "=".toList [] "a".toList
        (Value.str "1.2.3".toList)) ∧
    EvaluateRule Unicode.inert
        (Node.mk "operand".toList "=".toList [] "a".toList (Value.str "1.2.3".toList))
        [("a".toList, Value.str "1.2.3".toList)] = Except.ok true ∧
    EvaluateRule Unicode.inert
        (Node.mk "operand".toList "=".toList [] "a".toList (Value.str "1.2.3".toList))
        [("a".toList, Value.float (F64.ofInt 5))] = Except.ok false :=
  ⟨rfl, rfl, rfl, rfl, rfl⟩

/-- C18, amended. For a literal `v` that is a run of digits and points begun
by a digit and that is not a number (`strconv.Atoi` and `strconv.ParseFloat`
reject it), `Tokenize` reads `a = v` with `v` as one `VALUE` token, the value
conversion keeps `v` as a string, so `ParseRule` succeeds, and the evaluation
on a record with the field `a` returns without error: true exactly when the
lower-cased text of the record value is `v`. -/
theorem rule_malformed_numeral_is_text (U : Unicode) (v : Str) (hv : IsNumeralRun v)
    (hint : Atoi v = none) (hfloat : ParseFloat v = none) :
    Tokenize U ("a = ".toList ++ v) =
      Except.ok [⟨TokenType.FIELD, "a".toList⟩, ⟨TokenType.COMPARISON, "=".toList⟩,
        ⟨TokenType.VALUE, v⟩] ∧
    ParseRule U ("a = ".toList ++ v) =
      Except.ok (Node.mk "operand".toList "=".toList [] "a".toList (Value.str v)) ∧
    ∀ (data : Record) (x : Value), data.lookup "a".toList = some x →
      EvaluateRule U (Node.mk "operand".toList "=".toList [] "a".toList (Value.str v)) data =
        Except.ok (decide (ToLower U (formatValue x) = v)) := by
  have htok := @Tokenize_a_eq_numeral U v hv
  have hval : parseValue v = Value.str v := by
    unfold parseValue
    rw [hint, hfloat]
  refine ⟨htok, ?_, ?_⟩
  · unfold ParseRule
    rw [htok]
    have hp : Parse [⟨TokenType.FIELD, "a".toList⟩, ⟨TokenType.COMPARISON, "=".toList⟩,
        ⟨TokenType.VALUE, v⟩] =
        Except.ok (operandNode "a".toList "=".toList v) := rfl
    simp only [hp]
    unfold operandNode
    rw [hval]
  · intro data x hx
    rw [EvaluateRule_operand, hx]
    simp only
    rw [compareValues_string x (Value.str v) "=".toList (Or.inr rfl), if_pos rfl]
    have : formatValue (Value.str v) = v := rfl
    rw [this, IsNumeralRun_lower hv]

/-- C18 amended, at the literal `1.2.3` and the record `{a: "1.2.3"}`. -/
theorem rule_malformed_numeral_is_text_witness :
    EvaluateRule Unicode.inert
        (Node.mk "operand".toList "=".toList [] "a".toList (Value.str "1.2.3".toList))
        [("a".toList, Value.str "1.2.3".toList)] =
      Except.ok (decide
        (ToLower Unicode.inert (formatValue (Value.str "1.2.3".toList)) = "1.2.3".toList)) :=
  (rule_malformed_numeral_is_text Unicode.inert "1.2.3".toList
    ⟨'1', ".2.3".toList, rfl, by decide, by decide⟩ rfl rfl).2.2
    [("a".toList, Value.str "1.2.3".toList)] (Value.str "1.2.3".toList) rfl

/-- C19. When `Parse` succeeds on a token sequence, it succeeds with the same
tree on the sequence without its parentheses. -/
theorem Parse_stripParens (ts : List Token) (T : Node) (h : Parse ts = Except.ok T) :
    Parse (stripParens ts) = Except.ok T :=
  (Parse_ok_iff_DerivesTo _ T).mpr (DerivesTo_stripParens ((Parse_ok_iff_DerivesTo ts T).mp h))

/-- C19 at the tokens of `(a > 1 AND (b < 2))`: without the parentheses they
are the tokens of `a > 1 AND b < 2`, with the same tree. -/
theorem Parse_stripParens_witness :
    Tokenize Unicode.inert "(a > 1 AND (b < 2))".toList =
      Except.ok [⟨TokenType.LPAREN, "(".toList⟩, ⟨TokenType.FIELD, "a".toList⟩,
        ⟨TokenType.COMPARISON, ">".toList⟩, ⟨TokenType.VALUE, "1".toList⟩,
        ⟨TokenType.AND, "AND".toList⟩, ⟨TokenType.LPAREN, "(".toList⟩,
        ⟨TokenType.FIELD, "b".toList⟩, ⟨TokenType.COMPARISON, "<".toList⟩,
        ⟨TokenType.VALUE, "2".toList⟩, ⟨TokenType.RPAREN, ")".toList⟩,
        ⟨TokenType.RPAREN, ")".toList⟩] ∧
    Parse [⟨TokenType.FIELD, "a".toList⟩, ⟨TokenType.COMPARISON, ">".toList⟩,
        ⟨TokenType.VALUE, "1".toList⟩, ⟨TokenType.AND, "AND".toList⟩,
        ⟨TokenType.FIELD, "b".toList⟩, ⟨TokenType.COMPARISON, "<".toList⟩,
        ⟨TokenType.VALUE, "2".toList⟩] =
      Except.ok (operatorNode "AND".toList (operandNode "a".toList ">".toList "1".toList)
        (operandNode "b".toList "<".toList "2".toList)) :=
  ⟨rfl, Parse_stripParens
    [⟨TokenType.LPAREN, "(".toList⟩, ⟨TokenType.FIELD, "a".toList⟩,
      ⟨TokenType.COMPARISON, ">".toList⟩, ⟨TokenType.VALUE, "1".toList⟩,
      ⟨TokenType.AND, "AND".toList⟩, ⟨TokenType.LPAREN, "(".toList⟩,
      ⟨TokenType.FIELD, "b".toList⟩, ⟨TokenType.COMPARISON, "<".toList⟩,
      ⟨TokenType.VALUE, "2".toList⟩, ⟨TokenType.RPAREN, ")".toList⟩,
      ⟨TokenType.RPAREN, ")".toList⟩] _ rfl⟩

/-- C20. The preprocessing changes the meaning of `name = 'a  b'`: it makes one
space of the two inside the quoted literal, so the stored rule is
`name = 'a b'`. Both texts parse, and on `{name: "a  b"}` the rule as written
is true and the stored rule false. -/
theorem cleanExpression_changes_quoted_literal (U : Unicode) :
    cleanExpression U "name = 'a  b'".toList = "name = 'a b'".toList ∧
    ParseRule U "name = 'a  b'".toList =
      Except.ok (Node.mk "operand".toList "=".toList [] "name".toList
        (Value.str "a  b".toList)) ∧
    ParseRule U (cleanExpression U "name = 'a  b'".toList) =
      Except.ok (Node.mk "operand".toList "=".toList [] "name".toList
        (Value.str "a b".toList)) ∧
    EvaluateRule U (Node.mk "operand".toList "=".toList [] "name".toList
        (Value.str "a  b".toList)) [("name".toList, Value.str "a  b".toList)] =
      Except.ok true ∧
    EvaluateRule U (Node.mk "operand".toList "=".toList [] "name".toList
        (Value.str "a b".toList)) [("name".toList, Value.str "a  b".toList)] =
      Except.ok false :=
  ⟨rfl, rfl, rfl, rfl, rfl⟩

end RuleEngine
